import Mathlib

/-!
Verification of the recursive harmonic structure engine of `src/App.js`.

The JavaScript source is shallowly embedded: JS numbers are modelled as
`Option ℚ` (`none` plays the role of `NaN`, which the source detects with
`isNaN` and filters; finite doubles are modelled as rationals), fallible
functions (those that `throw`) return `Except String _`, and the untyped
nested arrays of the harmonic structure are modelled by the inductive
`JsVal`.  Each definition mirrors one source function and keeps its name.
-/

namespace App

/-- A JavaScript number: `none` models `NaN`, `some q` a finite double. -/
abbrev JSNum := Option ℚ

/-- JS multiplication on numbers: `NaN` is absorbing. -/
def jsMul : JSNum → JSNum → JSNum
  | some a, some b => some (a * b)
  | _, _ => none

/-- JS falsiness of a number (`0` and `NaN` are falsy). -/
def jsNumFalsy : JSNum → Bool
  | none => true
  | some q => q = 0

/-- `JUST_INTONATION_RATIOS` (App.js lines 6-20): the thirteen just-intonation
ratios, in the insertion order of the source object (`Object.values`). -/
def JUST_INTONATION_RATIOS : List ℚ :=
  [1, 16/15, 9/8, 6/5, 5/4, 4/3, 45/32, 3/2, 8/5, 5/3, 9/5, 15/8, 2]

/-- `EQUAL_TEMPERAMENT_RATIOS` (App.js line 23): the twelve equal-tempered
semitone ratios `Math.pow(2, i/12)` for `i = 0..11`.  The source computes
them in IEEE-754 double precision; the entries below are the exact rational
values of those doubles.  No claim depends on the entries' magnitudes, only
on the list having exactly 12 elements. -/
def EQUAL_TEMPERAMENT_RATIOS : List ℚ :=
  [1,
   4771397596969315/4503599627370496,
   78986244726619/70368744177664,
   5355712719992597/4503599627370496,
   5674179970822795/4503599627370496,
   3005792134919727/2251799813685248,
   6369051672525773/4503599627370496,
   421735949569275/281474976710656,
   1787254696532879/1125899906842624,
   7574121564787629/4503599627370496,
   8024502270083369/4503599627370496,
   8501664005755715/4503599627370496]

/-- `gcd` (App.js lines 26-28): `b === 0 ? a : gcd(b, a % b)`. -/
def gcd (a b : ℕ) : ℕ :=
  if b = 0 then a else gcd b (a % b)
termination_by b
decreasing_by exact Nat.mod_lt _ (Nat.pos_of_ne_zero (by assumption))

/-- `generateHarmonicSeries` (App.js lines 31-33): `f*1, f*2, …, f*n`. -/
def generateHarmonicSeries (f : JSNum) (nHarmonics : ℕ) : List JSNum :=
  (List.range nHarmonics).map (fun (i : ℕ) => jsMul f (some ((i : ℚ) + 1)))

/-- `generateBaseFrequencies` (App.js lines 35-54).  The tuning mode is the
raw string the source compares against.  A `customRatios` value of `none`
models JS `null` (falsy); any array, even an empty one, is truthy.  The
`throw` in the source's final `else` is modelled with `Except.error` (the
source message contains quote characters that are elided here). -/
def generateBaseFrequencies (f : JSNum) (nHarmonics : ℕ) (mode : String)
    (customRatios : Option (List JSNum)) : Except String (List JSNum) :=
  if mode = "harmonic" then
    .ok (generateHarmonicSeries f nHarmonics)
  else if mode = "just" then
    .ok (((JUST_INTONATION_RATIOS.insertionSort (· ≤ ·)).take nHarmonics).map
      (fun ratio => jsMul f (some ratio)))
  else if mode = "equal" then
    .ok ((EQUAL_TEMPERAMENT_RATIOS.take nHarmonics).map
      (fun ratio => jsMul f (some ratio)))
  else if mode = "custom" ∧ customRatios.isSome then
    .ok (((customRatios.getD []).take nHarmonics).map (fun ratio => jsMul f ratio))
  else
    .error "Mode must be harmonic, just, equal, or custom"

/-- The length `generateBaseFrequencies` actually produces in each mode:
the requested breadth, capped by the size of the ratio table consulted. -/
def effectiveBreadth (nHarmonics : ℕ) (mode : String)
    (customRatios : Option (List JSNum)) : ℕ :=
  if mode = "harmonic" then nHarmonics
  else if mode = "just" then min nHarmonics 13
  else if mode = "equal" then min nHarmonics 12
  else min nHarmonics (customRatios.getD []).length

theorem just_sorted_length :
    (JUST_INTONATION_RATIOS.insertionSort (· ≤ ·)).length = 13 := by
  have h := List.perm_insertionSort (α := ℚ) (· ≤ ·) JUST_INTONATION_RATIOS
  rw [h.length_eq]
  rfl

theorem generateHarmonicSeries_length (f : JSNum) (n : ℕ) :
    (generateHarmonicSeries f n).length = n := by
  unfold generateHarmonicSeries
  rw [List.length_map, List.length_range]

theorem generateBaseFrequencies_harmonic (f : JSNum) (n : ℕ)
    (cr : Option (List JSNum)) :
    generateBaseFrequencies f n "harmonic" cr = .ok (generateHarmonicSeries f n) := rfl

theorem generateBaseFrequencies_just (f : JSNum) (n : ℕ)
    (cr : Option (List JSNum)) :
    generateBaseFrequencies f n "just" cr =
      .ok (((JUST_INTONATION_RATIOS.insertionSort (· ≤ ·)).take n).map
        (fun ratio => jsMul f (some ratio))) := rfl

theorem generateBaseFrequencies_equal (f : JSNum) (n : ℕ)
    (cr : Option (List JSNum)) :
    generateBaseFrequencies f n "equal" cr =
      .ok ((EQUAL_TEMPERAMENT_RATIOS.take n).map
        (fun ratio => jsMul f (some ratio))) := rfl

theorem generateBaseFrequencies_custom (f : JSNum) (n : ℕ) (rs : List JSNum) :
    generateBaseFrequencies f n "custom" (some rs) =
      .ok ((rs.take n).map (fun ratio => jsMul f ratio)) := rfl

theorem generateBaseFrequencies_length (f : JSNum) (n : ℕ) (mode : String)
    (cr : Option (List JSNum))
    (h : mode = "harmonic" ∨ mode = "just" ∨ mode = "equal" ∨
         (mode = "custom" ∧ cr.isSome)) :
    ∃ l, generateBaseFrequencies f n mode cr = .ok l ∧
      l.length = effectiveBreadth n mode cr := by
  rcases h with h | h | h | ⟨h, hcr⟩ <;> subst h
  · refine ⟨_, generateBaseFrequencies_harmonic f n cr, ?_⟩
    rw [generateHarmonicSeries_length]
    rfl
  · refine ⟨_, generateBaseFrequencies_just f n cr, ?_⟩
    rw [List.length_map, List.length_take, just_sorted_length]
    rfl
  · refine ⟨_, generateBaseFrequencies_equal f n cr, ?_⟩
    rw [List.length_map, List.length_take]
    rfl
  · obtain ⟨rs, hrs⟩ := Option.isSome_iff_exists.mp hcr
    subst hrs
    refine ⟨_, generateBaseFrequencies_custom f n rs, ?_⟩
    rw [List.length_map, List.length_take]
    simp [effectiveBreadth]

/-- C2 (corrected): with the documented breadth range `[3,13]`, `equal` mode
caps the output at the 12 entries of its ratio table, so breadth 13 yields
only 12 frequencies, not 13. -/
theorem C2_counterexample :
    generateBaseFrequencies (some 1) 13 "equal" none =
      .ok (EQUAL_TEMPERAMENT_RATIOS.map (fun r => some r)) ∧
    (EQUAL_TEMPERAMENT_RATIOS.map (fun r : ℚ => some r)).length = 12 ∧ (12 : ℕ) ≠ 13 := by
  refine ⟨?_, by simp [EQUAL_TEMPERAMENT_RATIOS], by decide⟩
  simp [generateBaseFrequencies, jsMul, EQUAL_TEMPERAMENT_RATIOS]

/-- C2 (amended): `generate` returns an ordered sequence whose length is the
breadth capped at the consulted ratio-table size: exactly `breadth` in
harmonic mode, `min breadth 13` in just mode, `min breadth 12` in equal mode,
and `min breadth |customRatios|` in custom mode. -/
theorem C2_generate_length (f : JSNum) (n : ℕ) (mode : String)
    (cr : Option (List JSNum))
    (h : mode = "harmonic" ∨ mode = "just" ∨ mode = "equal" ∨
         (mode = "custom" ∧ cr.isSome)) :
    ∃ l, generateBaseFrequencies f n mode cr = .ok l ∧
      l.length = effectiveBreadth n mode cr ∧
      (mode = "harmonic" → l.length = n) ∧
      (mode = "just" → l.length = min n 13) ∧
      (mode = "equal" → l.length = min n 12) ∧
      (∀ rs, cr = some rs → mode = "custom" → l.length = min n rs.length) := by
  obtain ⟨l, hok, hlen⟩ := generateBaseFrequencies_length f n mode cr h
  refine ⟨l, hok, hlen, ?_, ?_, ?_, ?_⟩
  · intro hm; subst hm; simpa [effectiveBreadth] using hlen
  · intro hm; subst hm; simpa [effectiveBreadth] using hlen
  · intro hm; subst hm; simpa [effectiveBreadth] using hlen
  · intro rs hrs hm; subst hm; subst hrs; simpa [effectiveBreadth] using hlen

theorem C2_witness :
    ("harmonic" = "harmonic" ∨ "harmonic" = "just" ∨ "harmonic" = "equal" ∨
      ("harmonic" = "custom" ∧ (none : Option (List JSNum)).isSome)) ∧
    ∃ l, generateBaseFrequencies (some 440) 5 "harmonic" none = .ok l ∧
      l.length = effectiveBreadth 5 "harmonic" none ∧
      ("harmonic" = "harmonic" → l.length = 5) ∧
      ("harmonic" = "just" → l.length = min 5 13) ∧
      ("harmonic" = "equal" → l.length = min 5 12) ∧
      (∀ rs, (none : Option (List JSNum)) = some rs → "harmonic" = "custom" →
        l.length = min 5 rs.length) :=
  ⟨Or.inl rfl, C2_generate_length (some 440) 5 "harmonic" none (Or.inl rfl)⟩

/-- C3 (corrected): in custom mode the source only checks that `customRatios`
is truthy (non-null); a one-entry array is accepted without error, contrary
to the claimed "fewer than 2 entries" failure condition. -/
theorem C3_counterexample :
    ([some ((3:ℚ)/2)] : List JSNum).length < 2 ∧
    generateBaseFrequencies (some 2) 5 "custom" (some [some (3/2)]) =
      .ok [some 3] := by
  refine ⟨by decide, ?_⟩
  rw [generateBaseFrequencies_custom]
  norm_num [jsMul]

/-- C3 (amended): in custom mode, `generate` fails with a configuration error
exactly when `customRatios` is null; for every non-null `customRatios` (of any
length, including fewer than 2 entries) it returns, without error, the first
`breadth` entries each multiplied by `f`.  Any mode other than `harmonic`,
`just`, `equal`, `custom` also fails with a configuration error. -/
theorem C3_custom_error_behavior (f : JSNum) (n : ℕ) (mode : String)
    (cr : Option (List JSNum)) :
    (mode = "custom" →
      ((∃ e, generateBaseFrequencies f n mode cr = .error e) ↔ cr = none)) ∧
    (∀ rs, mode = "custom" → cr = some rs →
      generateBaseFrequencies f n mode cr =
        .ok ((rs.take n).map (fun ratio => jsMul f ratio))) ∧
    (mode ≠ "harmonic" → mode ≠ "just" → mode ≠ "equal" → mode ≠ "custom" →
      ∃ e, generateBaseFrequencies f n mode cr = .error e) := by
  refine ⟨?_, ?_, ?_⟩
  · intro hm; subst hm
    cases cr with
    | none => simp [generateBaseFrequencies]
    | some rs => simp [generateBaseFrequencies]
  · intro rs hm hcr; subst hm; subst hcr
    exact generateBaseFrequencies_custom f n rs
  · intro h1 h2 h3 h4
    refine ⟨"Mode must be harmonic, just, equal, or custom", ?_⟩
    simp [generateBaseFrequencies, h1, h2, h3, h4]

theorem C3_witness :
    (∃ e, generateBaseFrequencies (some 1) 3 "custom" none = .error e) ∧
    generateBaseFrequencies (some 1) 3 "custom" (some [some 2, some 3]) =
      .ok [some 2, some 3] := by
  constructor
  · exact ((C3_custom_error_behavior (some 1) 3 "custom" none).1 rfl).mpr rfl
  · rw [(C3_custom_error_behavior (some 1) 3 "custom"
      (some [some 2, some 3])).2.1 [some 2, some 3] rfl rfl]
    norm_num [jsMul]

/-! ### The nested harmonic structure (`generateHarmonicStructure`,
`extractAllFrequenciesWithPaths`) -/

/-- An untyped JavaScript value as stored in `structure.levels`:
either a number or an array of further values. -/
inductive JsVal where
  | num (x : JSNum)
  | arr (xs : List JsVal)

/-- JS truthiness of a `JsVal`: arrays are truthy, numbers are falsy
iff `0` or `NaN`. -/
def JsVal.truthy : JsVal → Bool
  | .num x => !(jsNumFalsy x)
  | .arr _ => true

/-- The harmonic structure (App.js lines 58-61). -/
structure HarmonicStructure where
  base : JSNum
  levels : List JsVal

/-- The `data.map(freq => …)` body of `processNestedLevel`'s
array-of-frequencies branch (App.js lines 86-91): a valid number becomes the
tuning rule's output, anything else (including `NaN`) becomes `[]`. -/
def leafMap (gen : JSNum → Except String (List JSNum)) :
    List JsVal → Except String (List JsVal)
  | [] => pure []
  | v :: vs => do
      let w ← (match v with
        | .num (some q) => do
            let fs ← gen (some q)
            pure (JsVal.arr (fs.map .num))
        | _ => pure (JsVal.arr []))
      let ws ← leafMap gen vs
      pure (w :: ws)

mutual

/-- `processNestedLevel` (App.js lines 82-98): the source distinguishes an
array of frequencies from an array of arrays by `typeof data[0] === 'number'`
(modelled by matching on `data.head?`); non-arrays map to `[]`. -/
def processNestedLevel (gen : JSNum → Except String (List JSNum)) :
    JsVal → Except String JsVal
  | .arr data =>
    match data.head? with
    | some (.num _) => do
        let l ← leafMap gen data
        pure (.arr l)
    | _ => do
        let l ← nestedMap gen data
        pure (.arr l)
  | .num _ => pure (.arr [])

/-- The `data.map(subArray => processNestedLevel(subArray))` recursion of
`processNestedLevel` (App.js line 94). -/
def nestedMap (gen : JSNum → Except String (List JSNum)) :
    List JsVal → Except String (List JsVal)
  | [] => pure []
  | v :: vs => do
      let w ← processNestedLevel gen v
      let ws ← nestedMap gen vs
      pure (w :: ws)

end

/-- The `level === 1` loop of `generateHarmonicStructure` (App.js lines
72-79): each valid (non-`NaN`) frequency of `H^0` generates a series,
invalid entries are skipped without a placeholder. -/
def levelOneMap (gen : JSNum → Except String (List JSNum)) :
    List JSNum → Except String (List JsVal)
  | [] => pure []
  | some q :: vs => do
      let fs ← gen (some q)
      let ws ← levelOneMap gen vs
      pure (JsVal.arr (fs.map .num) :: ws)
  | none :: vs => levelOneMap gen vs

/-- The `level ≥ 2` iterations of `generateHarmonicStructure` (App.js lines
80-102): repeatedly apply `processNestedLevel` to the previous level,
collecting the results. -/
def buildHigherLevels (gen : JSNum → Except String (List JSNum))
    (prev : JsVal) : ℕ → Except String (List JsVal)
  | 0 => pure []
  | k+1 => do
      let next ← processNestedLevel gen prev
      let rest ← buildHigherLevels gen next k
      pure (next :: rest)

/-- `generateHarmonicStructure` (App.js lines 57-106). -/
def generateHarmonicStructure (baseFreq : JSNum) (maxLevel nHarmonics : ℕ)
    (mode : String) (customRatios : Option (List JSNum)) :
    Except String HarmonicStructure := do
  let H0 ← generateBaseFrequencies baseFreq nHarmonics mode customRatios
  match maxLevel with
  | 0 => pure ⟨baseFreq, [.arr (H0.map .num)]⟩
  | k+1 => do
      let L1 ← levelOneMap
        (fun f => generateBaseFrequencies f nHarmonics mode customRatios) H0
      let higher ← buildHigherLevels
        (fun f => generateBaseFrequencies f nHarmonics mode customRatios)
        (.arr L1) k
      pure ⟨baseFreq, .arr (H0.map .num) :: .arr L1 :: higher⟩

/-- A flattened frequency record (the objects pushed by
`extractAllFrequenciesWithPaths`). -/
structure FreqRecord where
  frequency : JSNum
  level : ℤ
  path : List ℕ
  pathString : String
deriving DecidableEq

/-- The `pathString` label `H^level[i0,i1,…]` (App.js line 138). -/
def pathStringOf (levelIndex : ℕ) (path : List ℕ) : String :=
  "H^" ++ toString levelIndex ++ "[" ++
    String.intercalate "," (path.map toString) ++ "]"

/-- The inner `processLevel` of `extractAllFrequenciesWithPaths` (App.js
lines 130-155), recursing on the expected nesting depth. -/
def processLevel (levelIndex : ℕ) : ℕ → JsVal → List ℕ → List FreqRecord
  | 0, .arr data, currentPath =>
      data.enum.filterMap (fun p => match p.2 with
        | .num (some q) => some ⟨some q, (levelIndex : ℤ),
            currentPath ++ [p.1], pathStringOf levelIndex (currentPath ++ [p.1])⟩
        | _ => none)
  | d+1, .arr data, currentPath =>
      data.enum.flatMap (fun p => match p.2 with
        | .arr sub => processLevel levelIndex d (.arr sub) (currentPath ++ [p.1])
        | .num _ => [])
  | _, .num _, _ => []

/-- The body of the `structure.levels.forEach` in
`extractAllFrequenciesWithPaths` (App.js lines 127-175): level 0 is read as
a flat array of frequencies, level `d ≥ 1` through `processLevel` at nesting
depth `d`; the `if (!level) return` falsiness guard is kept. -/
def extractLevel (p : ℕ × JsVal) : List FreqRecord :=
  if p.2.truthy = false then []
  else match p.1, p.2 with
    | 0, .arr lvl => lvl.enum.filterMap (fun q => match q.2 with
        | .num (some f) => some ⟨some f, 0, [q.1], pathStringOf 0 [q.1]⟩
        | _ => none)
    | 0, .num _ => []
    | (li+1), v => processLevel (li+1) (li+1) v []

/-- `extractAllFrequenciesWithPaths` (App.js lines 109-178).  The
`!structure.base` truthiness guard returns `[]` for a `0` or `NaN` base. -/
def extractAllFrequenciesWithPaths (s : HarmonicStructure) :
    List FreqRecord :=
  if jsNumFalsy s.base then []
  else
    (match s.base with
     | some q => [⟨some q, -1, [], "Base"⟩]
     | none => []) ++
    s.levels.enum.flatMap extractLevel

/-! ### Shape and counting lemmas for the generated structure -/

/-- The tuning rule behaves uniformly during generation: on every finite
input it succeeds with exactly `b` non-`NaN` frequencies. -/
def GenOk (gen : JSNum → Except String (List JSNum)) (b : ℕ) : Prop :=
  ∀ q : ℚ, ∃ l, gen (some q) = .ok l ∧ l.length = b ∧ ∀ x ∈ l, x.isSome

/-- `Shaped b n v`: `v` is nested to exactly `n` array-levels, with branching
factor `b` everywhere and non-`NaN` numeric leaves. -/
inductive Shaped (b : ℕ) : ℕ → JsVal → Prop where
  | leaf (q : ℚ) : Shaped b 0 (.num (some q))
  | node (xs : List JsVal) (n : ℕ) (hlen : xs.length = b)
      (hx : ∀ x ∈ xs, Shaped b n x) : Shaped b (n+1) (.arr xs)

theorem Shaped.arr_of_succ {b n : ℕ} {v : JsVal} (h : Shaped b (n+1) v) :
    ∃ xs, v = .arr xs ∧ xs.length = b ∧ ∀ x ∈ xs, Shaped b n x := by
  cases h with
  | node xs _ hlen hx => exact ⟨xs, rfl, hlen, hx⟩

theorem Shaped.zero_inv {b : ℕ} {v : JsVal} (h : Shaped b 0 v) :
    ∃ q, v = .num (some q) := by
  cases h with
  | leaf q => exact ⟨q, rfl⟩

theorem jsMul_some (a b : ℚ) : jsMul (some a) (some b) = some (a * b) := rfl

theorem exceptBind_ok {ε α β : Type _} (a : α) (f : α → Except ε β) :
    (bind (Except.ok a) f : Except ε β) = f a := rfl

theorem exceptBind_error {ε α β : Type _} (e : ε) (f : α → Except ε β) :
    (bind (Except.error e) f : Except ε β) = .error e := rfl

theorem exceptPure_def {ε α : Type _} (a : α) :
    (pure a : Except ε α) = .ok a := rfl

theorem jsMul_some_isSome {x : JSNum} (q : ℚ) (h : x.isSome) :
    (jsMul (some q) x).isSome := by
  obtain ⟨r, hr⟩ := Option.isSome_iff_exists.mp h
  subst hr
  rfl

theorem generateBaseFrequencies_all_some (q : ℚ) (n : ℕ) (mode : String)
    (cr : Option (List JSNum))
    (hmode : mode = "harmonic" ∨ mode = "just" ∨ mode = "equal" ∨
      (∃ rs, mode = "custom" ∧ cr = some rs ∧ ∀ r ∈ rs, r.isSome)) :
    ∃ l, generateBaseFrequencies (some q) n mode cr = .ok l ∧
      l.length = effectiveBreadth n mode cr ∧ ∀ x ∈ l, x.isSome := by
  rcases hmode with h | h | h | ⟨rs, h, hcr, hrs⟩ <;> subst h
  · refine ⟨_, generateBaseFrequencies_harmonic _ n cr, ?_, ?_⟩
    · rw [generateHarmonicSeries_length]; rfl
    · intro x hx
      simp only [generateHarmonicSeries, List.mem_map] at hx
      obtain ⟨i, _, hi⟩ := hx
      rw [← hi]; rfl
  · refine ⟨_, generateBaseFrequencies_just _ n cr, ?_, ?_⟩
    · rw [List.length_map, List.length_take, just_sorted_length]; rfl
    · intro x hx
      simp only [List.mem_map] at hx
      obtain ⟨r, _, hr⟩ := hx
      rw [← hr]; rfl
  · refine ⟨_, generateBaseFrequencies_equal _ n cr, ?_, ?_⟩
    · rw [List.length_map, List.length_take]; rfl
    · intro x hx
      simp only [List.mem_map] at hx
      obtain ⟨r, _, hr⟩ := hx
      rw [← hr]; rfl
  · subst hcr
    refine ⟨_, generateBaseFrequencies_custom _ n rs, ?_, ?_⟩
    · rw [List.length_map, List.length_take]
      simp [effectiveBreadth]
    · intro x hx
      simp only [List.mem_map] at hx
      obtain ⟨r, hrmem, hr⟩ := hx
      rw [← hr]
      exact jsMul_some_isSome q (hrs r (List.take_subset n rs hrmem))

theorem genOk_of_valid (n : ℕ) (mode : String) (cr : Option (List JSNum))
    (hmode : mode = "harmonic" ∨ mode = "just" ∨ mode = "equal" ∨
      (∃ rs, mode = "custom" ∧ cr = some rs ∧ ∀ r ∈ rs, r.isSome)) :
    GenOk (fun f => generateBaseFrequencies f n mode cr)
      (effectiveBreadth n mode cr) := by
  intro q
  exact generateBaseFrequencies_all_some q n mode cr hmode

theorem leafMap_ok {gen : JSNum → Except String (List JSNum)} {b : ℕ}
    (hg : GenOk gen b) :
    ∀ (data : List JsVal), (∀ x ∈ data, Shaped b 0 x) →
      ∃ ys, leafMap gen data = .ok ys ∧ ys.length = data.length ∧
        ∀ y ∈ ys, Shaped b 1 y := by
  intro data
  induction data with
  | nil => exact fun _ => ⟨[], rfl, rfl, by simp⟩
  | cons v vs ih =>
    intro h
    have hv := h v (by simp)
    cases hv with
    | leaf q =>
      obtain ⟨fs, hfs, hlen, hsome⟩ := hg q
      obtain ⟨ys, hys, hyslen, hysh⟩ := ih (fun x hx => h x (by simp [hx]))
      refine ⟨.arr (fs.map .num) :: ys, ?_, by simp [hyslen], ?_⟩
      · simp only [leafMap, hfs, hys]
        rfl
      · intro y hy
        rcases List.mem_cons.mp hy with hy | hy
        · subst hy
          refine Shaped.node _ 0 (by simp [hlen]) ?_
          intro x hx
          simp only [List.mem_map] at hx
          obtain ⟨f, hfmem, hf⟩ := hx
          obtain ⟨r, hr⟩ := Option.isSome_iff_exists.mp (hsome f hfmem)
          subst hr
          rw [← hf]
          exact Shaped.leaf r
        · exact hysh y hy

theorem nestedMap_ok {gen : JSNum → Except String (List JSNum)}
    {P : JsVal → Prop} {Q : JsVal → Prop}
    (hstep : ∀ v, P v → ∃ w, processNestedLevel gen v = .ok w ∧ Q w) :
    ∀ (data : List JsVal), (∀ x ∈ data, P x) →
      ∃ ws, nestedMap gen data = .ok ws ∧ ws.length = data.length ∧
        ∀ w ∈ ws, Q w := by
  intro data
  induction data with
  | nil => exact fun _ => ⟨[], rfl, rfl, by simp⟩
  | cons v vs ih =>
    intro h
    obtain ⟨w, hw, hQ⟩ := hstep v (h v (by simp))
    obtain ⟨ws, hws, hwslen, hwsh⟩ := ih (fun x hx => h x (by simp [hx]))
    refine ⟨w :: ws, ?_, by simp [hwslen], ?_⟩
    · simp only [nestedMap, hw, hws]
      rfl
    · intro u hu
      rcases List.mem_cons.mp hu with hu | hu
      · subst hu; exact hQ
      · exact hwsh u hu

theorem processNestedLevel_ok {gen : JSNum → Except String (List JSNum)}
    {b : ℕ} (hg : GenOk gen b) (hb : 1 ≤ b) :
    ∀ (n : ℕ) (v : JsVal), Shaped b (n+1) v →
      ∃ w, processNestedLevel gen v = .ok w ∧ Shaped b (n+2) w := by
  intro n
  induction n with
  | zero =>
    intro v hv
    obtain ⟨xs, hveq, hlen, hx⟩ := hv.arr_of_succ
    subst hveq
    have hne : xs ≠ [] := by
      intro hnil; subst hnil; simp at hlen; omega
    obtain ⟨x0, xs', hxs⟩ := List.exists_cons_of_ne_nil hne
    obtain ⟨q, hq⟩ := (hx x0 (by simp [hxs])).zero_inv
    have hhead : xs.head? = some (JsVal.num (some q)) := by
      rw [hxs, hq]; rfl
    obtain ⟨ys, hys, hyslen, hysh⟩ := leafMap_ok hg xs hx
    refine ⟨.arr ys, ?_, Shaped.node ys 1 (hyslen.trans hlen) hysh⟩
    simp only [processNestedLevel, hhead, hys, exceptBind_ok]
    rfl
  | succ m ih =>
    intro v hv
    obtain ⟨xs, hveq, hlen, hx⟩ := hv.arr_of_succ
    subst hveq
    have hne : xs ≠ [] := by
      intro hnil; subst hnil; simp at hlen; omega
    obtain ⟨x0, xs', hxs⟩ := List.exists_cons_of_ne_nil hne
    obtain ⟨s0, hs0eq, _, _⟩ := (hx x0 (by simp [hxs])).arr_of_succ
    have hhead : xs.head? = some (JsVal.arr s0) := by
      rw [hxs, hs0eq]; rfl
    obtain ⟨ws, hws, hwslen, hwsh⟩ :=
      @nestedMap_ok gen (Shaped b (m+1)) (Shaped b (m+2)) ih xs hx
    refine ⟨.arr ws, ?_, Shaped.node ws (m+2) (hwslen.trans hlen) hwsh⟩
    simp only [processNestedLevel, hhead, hws, exceptBind_ok]
    rfl

theorem levelOneMap_ok {gen : JSNum → Except String (List JSNum)} {b : ℕ}
    (hg : GenOk gen b) :
    ∀ (H0 : List JSNum), (∀ x ∈ H0, x.isSome) →
      ∃ L1, levelOneMap gen H0 = .ok L1 ∧ L1.length = H0.length ∧
        ∀ y ∈ L1, Shaped b 1 y := by
  intro H0
  induction H0 with
  | nil => exact fun _ => ⟨[], rfl, rfl, by simp⟩
  | cons v vs ih =>
    intro h
    obtain ⟨q, hq⟩ := Option.isSome_iff_exists.mp (h v (by simp))
    subst hq
    obtain ⟨fs, hfs, hlen, hsome⟩ := hg q
    obtain ⟨ys, hys, hyslen, hysh⟩ := ih (fun x hx => h x (by simp [hx]))
    refine ⟨.arr (fs.map .num) :: ys, ?_, by simp [hyslen], ?_⟩
    · simp only [levelOneMap, hfs, hys]
      rfl
    · intro y hy
      rcases List.mem_cons.mp hy with hy | hy
      · subst hy
        refine Shaped.node _ 0 (by simp [hlen]) ?_
        intro x hx
        simp only [List.mem_map] at hx
        obtain ⟨f, hfmem, hf⟩ := hx
        obtain ⟨r, hr⟩ := Option.isSome_iff_exists.mp (hsome f hfmem)
        subst hr
        rw [← hf]
        exact Shaped.leaf r
      · exact hysh y hy

theorem buildHigherLevels_ok {gen : JSNum → Except String (List JSNum)}
    {b : ℕ} (hg : GenOk gen b) (hb : 1 ≤ b) :
    ∀ (k n : ℕ) (prev : JsVal), Shaped b (n+1) prev →
      ∃ ls, buildHigherLevels gen prev k = .ok ls ∧ ls.length = k ∧
        ∀ j (h : j < ls.length), Shaped b (n+2+j) (ls.get ⟨j, h⟩) := by
  intro k
  induction k with
  | zero =>
    exact fun n prev _ => ⟨[], rfl, rfl, fun j h => absurd h (by simp)⟩
  | succ m ih =>
    intro n prev hprev
    obtain ⟨next, hnext, hnShaped⟩ := processNestedLevel_ok hg hb n prev hprev
    obtain ⟨ls, hls, hlslen, hlsh⟩ := ih (n+1) next hnShaped
    refine ⟨next :: ls, ?_, by simp [hlslen], ?_⟩
    · simp only [buildHigherLevels, hnext, hls, exceptBind_ok]
      rfl
    · intro j hj
      cases j with
      | zero => exact hnShaped
      | succ i =>
        have h' : i < ls.length := by simpa using hj
        have heq : n + 2 + (i+1) = n + 1 + 2 + i := by omega
        rw [List.get_cons_succ, heq]
        exact hlsh i h'

theorem length_filterMap_of_isSome {α β : Type _} (f : α → Option β) :
    ∀ (l : List α), (∀ a ∈ l, (f a).isSome) →
      (l.filterMap f).length = l.length := by
  intro l
  induction l with
  | nil => intro _; rfl
  | cons a l ih =>
    intro h
    obtain ⟨bb, hb⟩ := Option.isSome_iff_exists.mp (h a (by simp))
    rw [List.filterMap_cons, hb]
    simp [ih (fun x hx => h x (by simp [hx]))]

theorem length_flatMap_const {α β : Type _} (f : α → List β) (c : ℕ) :
    ∀ (l : List α), (∀ a ∈ l, (f a).length = c) →
      (l.flatMap f).length = l.length * c := by
  intro l
  induction l with
  | nil => intro _; simp
  | cons a l ih =>
    intro h
    rw [List.flatMap_cons, List.length_append, h a (by simp),
      ih (fun x hx => h x (by simp [hx])), List.length_cons]
    ring

theorem snd_mem_of_mem_enumFrom {α : Type _} :
    ∀ {l : List α} {n : ℕ} {p : ℕ × α}, p ∈ l.enumFrom n → p.2 ∈ l := by
  intro l
  induction l with
  | nil => intro n p h; simp at h
  | cons a l ih =>
    intro n p h
    rw [List.enumFrom_cons] at h
    rcases List.mem_cons.mp h with h | h
    · subst h; simp
    · exact List.mem_cons_of_mem _ (ih h)

theorem snd_mem_of_mem_enum {α : Type _} {l : List α} {p : ℕ × α}
    (h : p ∈ l.enum) : p.2 ∈ l :=
  snd_mem_of_mem_enumFrom h

theorem processLevel_length {b : ℕ} (li : ℕ) :
    ∀ (d : ℕ) (v : JsVal) (path : List ℕ), Shaped b (d+1) v →
      (processLevel li d v path).length = b^(d+1) := by
  intro d
  induction d with
  | zero =>
    intro v path hv
    obtain ⟨xs, hveq, hlen, hx⟩ := hv.arr_of_succ
    subst hveq
    show (xs.enum.filterMap _).length = b^1
    rw [length_filterMap_of_isSome, List.enum_length, hlen, pow_one]
    intro p hp
    obtain ⟨q, hq⟩ := (hx p.2 (snd_mem_of_mem_enum hp)).zero_inv
    simp [hq]
  | succ m ih =>
    intro v path hv
    obtain ⟨xs, hveq, hlen, hx⟩ := hv.arr_of_succ
    subst hveq
    show (xs.enum.flatMap _).length = b^(m+2)
    rw [length_flatMap_const _ (b^(m+1)), List.enum_length, hlen]
    · ring
    · intro p hp
      have hsh := hx p.2 (snd_mem_of_mem_enum hp)
      obtain ⟨sub, hsub, _, _⟩ := hsh.arr_of_succ
      rw [hsub] at hsh ⊢
      exact ih (.arr sub) (path ++ [p.1]) hsh

theorem extractLevel_zero_length {b : ℕ} {lvl : List JsVal}
    (h : ∀ x ∈ lvl, Shaped b 0 x) (hlen : lvl.length = b) :
    (extractLevel (0, .arr lvl)).length = b := by
  show (lvl.enum.filterMap _).length = b
  rw [length_filterMap_of_isSome, List.enum_length, hlen]
  intro p hp
  obtain ⟨q, hq⟩ := (h p.2 (snd_mem_of_mem_enum hp)).zero_inv
  simp [hq]

theorem extractLevel_succ_length {b li : ℕ} {v : JsVal}
    (h : Shaped b (li+2) v) :
    (extractLevel (li+1, v)).length = b^(li+2) := by
  obtain ⟨xs, hveq, _, _⟩ := h.arr_of_succ
  subst hveq
  show (processLevel (li+1) (li+1) (.arr xs) []).length = b^(li+2)
  exact processLevel_length (li+1) (li+1) (.arr xs) [] h

theorem pow_congr_exp (b : ℕ) {x y : ℕ} (h : x = y) : b^x = b^y := by rw [h]

theorem range_pow_sum_succ (b s k : ℕ) :
    ((List.range (k+1)).map (fun j => b^(s+j))).sum
      = b^s + ((List.range k).map (fun j => b^(s+1+j))).sum := by
  rw [List.range_succ_eq_map, List.map_cons, List.sum_cons, List.map_map]
  have h1 : b^(s+0) = b^s := by rw [Nat.add_zero]
  have h2 : (List.range k).map ((fun j => b^(s+j)) ∘ Nat.succ)
      = (List.range k).map (fun j => b^(s+1+j)) := by
    apply List.map_congr_left
    intro j _
    show b^(s+(j+1)) = b^(s+1+j)
    exact pow_congr_exp b (by omega)
  rw [h1, h2]

theorem extract_enumFrom_higher_length {b : ℕ} :
    ∀ (rest : List JsVal) (n : ℕ), 1 ≤ n →
      (∀ j (h : j < rest.length), Shaped b (n+1+j) (rest.get ⟨j, h⟩)) →
      ((rest.enumFrom n).flatMap extractLevel).length =
        ((List.range rest.length).map (fun j => b^(n+1+j))).sum := by
  intro rest
  induction rest with
  | nil => intro n _ _; simp
  | cons v vs ih =>
    intro n hn h
    rw [List.enumFrom_cons, List.flatMap_cons, List.length_append]
    obtain ⟨m, hm⟩ : ∃ m, n = m + 1 := ⟨n - 1, by omega⟩
    subst hm
    have hv : Shaped b (m+2) v := by
      have := h 0 (by simp)
      simpa using this
    have h1 : (extractLevel (m+1, v)).length = b^(m+2) :=
      extractLevel_succ_length hv
    have hshape : ∀ j (hj : j < vs.length), Shaped b (m+2+1+j) (vs.get ⟨j, hj⟩) := by
      intro j hj
      have := h (j+1) (by simpa using hj)
      rw [List.get_cons_succ] at this
      have heq : m + 1 + 1 + (j + 1) = m + 2 + 1 + j := by omega
      rw [heq] at this
      exact this
    rw [h1, ih (m+2) (by omega) hshape, List.length_cons,
      range_pow_sum_succ b (m+2) vs.length]

theorem extract_with_base {bq : ℚ} (h : bq ≠ 0) (levels : List JsVal) :
    extractAllFrequenciesWithPaths ⟨some bq, levels⟩ =
      ⟨some bq, -1, [], "Base"⟩ :: levels.enum.flatMap extractLevel := by
  unfold extractAllFrequenciesWithPaths
  simp [jsNumFalsy, h]

theorem processLevel_level (li : ℕ) :
    ∀ (d : ℕ) (v : JsVal) (path : List ℕ), ∀ r ∈ processLevel li d v path,
      r.level = (li : ℤ) := by
  intro d
  induction d with
  | zero =>
    intro v path r hr
    cases v with
    | num f => simp [processLevel] at hr
    | arr data =>
      simp only [processLevel] at hr
      obtain ⟨p, hp, hpr⟩ := List.mem_filterMap.mp hr
      rcases hp2 : p.2 with f | sub
      · rcases f with _ | q
        · rw [hp2] at hpr
          simp at hpr
        · rw [hp2] at hpr
          simp only [Option.some.injEq] at hpr
          rw [← hpr]
      · rw [hp2] at hpr
        simp at hpr
  | succ m ih =>
    intro v path r hr
    cases v with
    | num f => simp [processLevel] at hr
    | arr data =>
      simp only [processLevel] at hr
      obtain ⟨p, hp, hpr⟩ := List.mem_flatMap.mp hr
      rcases hp2 : p.2 with f | sub
      · rw [hp2] at hpr
        simp at hpr
      · rw [hp2] at hpr
        exact ih (.arr sub) (path ++ [p.1]) r hpr

/-- Every record produced for level index `i` carries `level = i`. -/
theorem extractLevel_level (i : ℕ) (v : JsVal) :
    ∀ r ∈ extractLevel (i, v), r.level = (i : ℤ) := by
  intro r hr
  rw [extractLevel] at hr
  by_cases ht : (i, v).2.truthy = false
  · rw [if_pos ht] at hr
    simp at hr
  · rw [if_neg ht] at hr
    cases i with
    | zero =>
      cases v with
      | num f => simp at hr
      | arr lvl =>
        obtain ⟨p, hp, hpr⟩ := List.mem_filterMap.mp hr
        rcases hp2 : p.2 with f | sub
        · rcases f with _ | q
          · rw [hp2] at hpr
            simp at hpr
          · rw [hp2] at hpr
            simp only [Option.some.injEq] at hpr
            rw [← hpr]
            rfl
        · rw [hp2] at hpr
          simp at hpr
    | succ li =>
      exact processLevel_level (li+1) (li+1) v [] r hr

theorem filter_level_const_length {l : List FreqRecord} {lv : ℤ}
    (h : ∀ r ∈ l, r.level = lv) (d : ℤ) :
    (l.filter (fun r => decide (r.level = d))).length =
      if lv = d then l.length else 0 := by
  by_cases hd : lv = d
  · rw [if_pos hd, List.filter_eq_self.mpr]
    intro r hr
    rw [h r hr, hd]
    simp
  · rw [if_neg hd, List.filter_eq_nil_iff.mpr, List.length_nil]
    intro r hr
    rw [h r hr]
    simp only [decide_eq_true_eq]
    exact hd

/-- The records at depth `d` among the levels enumerated from `nStart`:
exactly the `d`-th level's `b^(d+1)` records when `d` is in range,
none otherwise. -/
theorem filter_level_enumFrom_length {b : ℕ} :
    ∀ (rest : List JsVal) (nStart : ℕ), 1 ≤ nStart →
      (∀ j (h : j < rest.length), Shaped b (nStart+1+j) (rest.get ⟨j, h⟩)) →
      ∀ (d : ℕ),
      (((rest.enumFrom nStart).flatMap extractLevel).filter
        (fun r => decide (r.level = (d : ℤ)))).length =
      if nStart ≤ d ∧ d < nStart + rest.length then b^(d+1) else 0 := by
  intro rest
  induction rest with
  | nil =>
    intro nStart _ _ d
    rw [if_neg (by simp)]
    rfl
  | cons v vs ih =>
    intro nStart hn h d
    obtain ⟨m, hm⟩ : ∃ m, nStart = m + 1 := ⟨nStart - 1, by omega⟩
    subst hm
    rw [List.enumFrom_cons, List.flatMap_cons, List.filter_append,
      List.length_append]
    have hv : Shaped b (m+2) v := by simpa using h 0 (by simp)
    have hlen1 : (extractLevel (m+1, v)).length = b^(m+2) :=
      extractLevel_succ_length hv
    have hshape : ∀ j (hj : j < vs.length),
        Shaped b (m+2+1+j) (vs.get ⟨j, hj⟩) := by
      intro j hj
      have := h (j+1) (by simpa using hj)
      rw [List.get_cons_succ] at this
      have heq : m + 1 + 1 + (j + 1) = m + 2 + 1 + j := by omega
      rw [heq] at this
      exact this
    rw [filter_level_const_length (extractLevel_level (m+1) v) ((d : ℕ) : ℤ),
      ih (m+2) (by omega) hshape d]
    by_cases hd : d = m+1
    · subst hd
      rw [if_pos rfl, if_neg (by omega), if_pos (by simp), hlen1]
      show b ^ (m + 2) + 0 = b ^ (m + 2)
      omega
    · rw [if_neg (by simp only [Nat.cast_inj]; omega)]
      by_cases hc : m+2 ≤ d ∧ d < m+2 + vs.length
      · rw [if_pos hc, if_pos (by simp only [List.length_cons]; omega)]
        omega
      · rw [if_neg hc, if_neg (by simp only [List.length_cons]; omega)]

/-- C1 (corrected): with `equal` mode and the in-range breadth 13, the level-0
layer has only 12 records (the 12-entry table caps the branching), so the flat
list has `1 + 12 = 13` records, not the claimed `1 + 13 = 14`. -/
theorem C1_counterexample :
    Except.map (fun st => (extractAllFrequenciesWithPaths st).length)
      (generateHarmonicStructure (some 1) 0 13 "equal" none) = .ok 13 ∧
    (13 : ℕ) ≠ 1 + 13 := by
  refine ⟨?_, by decide⟩
  have hg := generateBaseFrequencies_equal (some 1) 13 none
  rw [show generateHarmonicStructure (some 1) 0 13 "equal" none =
    Except.map (fun H0 => (⟨some 1, [.arr (H0.map .num)]⟩ : HarmonicStructure))
      (generateBaseFrequencies (some 1) 13 "equal" none) from rfl, hg]
  show Except.ok (extractAllFrequenciesWithPaths
    ⟨some 1, [.arr (((EQUAL_TEMPERAMENT_RATIOS.take 13).map
      (fun ratio => jsMul (some 1) (some ratio))).map .num)]⟩).length = .ok 13
  rw [extract_with_base one_ne_zero]
  simp [extractLevel, EQUAL_TEMPERAMENT_RATIOS, jsMul, List.enum,
    JsVal.truthy, List.enumFrom]

/-- C1 (amended): for a valid configuration, `build` followed by `flatten`
yields exactly `1 + Σ_{d=0}^{maxDepth} b^(d+1)` records where `b` is the
effective branching `effectiveBreadth` (the breadth capped at the consulted
ratio-table size); `b` equals the requested breadth except in `equal` mode
with breadth 13, where `b = 12`.  The head of the list is the single base
record — frequency `base`, depth `-1`, empty path, label `Base` — no other
record has depth `-1`, and for each depth `d` from `0` to `maxDepth` the
list holds exactly `b^(d+1)` records of that depth. -/
theorem C1_record_count (bq : ℚ) (hbq : 0 < bq) (maxLevel n : ℕ)
    (hml : maxLevel ≤ 3) (hn : 1 ≤ n) (mode : String)
    (cr : Option (List JSNum))
    (hmode : mode = "harmonic" ∨ mode = "just" ∨ mode = "equal" ∨
      (∃ rs, mode = "custom" ∧ cr = some rs ∧ rs ≠ [] ∧ ∀ r ∈ rs, r.isSome)) :
    ∃ st, generateHarmonicStructure (some bq) maxLevel n mode cr = .ok st ∧
      (extractAllFrequenciesWithPaths st).length =
        1 + ((List.range (maxLevel+1)).map
          (fun d => (effectiveBreadth n mode cr)^(d+1))).sum ∧
      (extractAllFrequenciesWithPaths st).head? =
        some ⟨some bq, -1, [], "Base"⟩ ∧
      ((extractAllFrequenciesWithPaths st).filter
        (fun r => decide (r.level = -1))).length = 1 ∧
      (∀ d : ℕ, d < maxLevel + 1 →
        ((extractAllFrequenciesWithPaths st).filter
          (fun r => decide (r.level = (d : ℤ)))).length =
          (effectiveBreadth n mode cr)^(d+1)) := by
  obtain ⟨b, hbdef⟩ : ∃ bb, bb = effectiveBreadth n mode cr := ⟨_, rfl⟩
  rw [← hbdef]
  have hmode' : mode = "harmonic" ∨ mode = "just" ∨ mode = "equal" ∨
      (∃ rs, mode = "custom" ∧ cr = some rs ∧ ∀ r ∈ rs, r.isSome) := by
    rcases hmode with h | h | h | ⟨rs, h1, h2, _, h4⟩
    · exact Or.inl h
    · exact Or.inr (Or.inl h)
    · exact Or.inr (Or.inr (Or.inl h))
    · exact Or.inr (Or.inr (Or.inr ⟨rs, h1, h2, h4⟩))
  have hb : 1 ≤ b := by
    rw [hbdef]
    rcases hmode with h | h | h | ⟨rs, h1, h2, h3, _⟩
    · subst h
      simp [effectiveBreadth]
      omega
    · subst h
      simp [effectiveBreadth]
      omega
    · subst h
      simp [effectiveBreadth]
      omega
    · subst h1; subst h2
      have hlen : 1 ≤ rs.length := List.length_pos.mpr h3
      simp [effectiveBreadth]
      omega
  have hg : GenOk (fun f => generateBaseFrequencies f n mode cr) b := by
    rw [hbdef]
    exact genOk_of_valid n mode cr hmode'
  obtain ⟨H0, hH0, hH0len, hH0some⟩ :=
    generateBaseFrequencies_all_some bq n mode cr hmode'
  rw [← hbdef] at hH0len
  have harr0 : ∀ x ∈ H0.map JsVal.num, Shaped b 0 x := by
    intro x hx
    simp only [List.mem_map] at hx
    obtain ⟨f, hfmem, hf⟩ := hx
    obtain ⟨q, hq⟩ := Option.isSome_iff_exists.mp (hH0some f hfmem)
    subst hq
    rw [← hf]
    exact Shaped.leaf q
  have harr0len : (H0.map JsVal.num).length = b := by
    rw [List.length_map, hH0len]
  have hsum0 : (extractLevel (0, .arr (H0.map .num))).length = b :=
    extractLevel_zero_length harr0 harr0len
  cases maxLevel with
  | zero =>
    have hflat : ([JsVal.arr (H0.map .num)].enum.flatMap extractLevel) =
        extractLevel (0, .arr (H0.map .num)) := by
      simp [List.enum, List.enumFrom]
    refine ⟨⟨some bq, [.arr (H0.map .num)]⟩, ?_, ?_, ?_, ?_, ?_⟩
    · show Except.map _ (generateBaseFrequencies (some bq) n mode cr) = _
      rw [hH0]
      rfl
    · rw [extract_with_base hbq.ne' [.arr (H0.map .num)]]
      have hs : ((List.range (0+1)).map (fun d => b^(d+1))).sum = b := by
        rw [show List.range (0+1) = [0] from rfl, List.map_cons, List.map_nil,
          List.sum_cons, List.sum_nil]
        norm_num
      simp only [List.length_cons, List.enum, List.enumFrom,
        List.flatMap_cons, List.flatMap_nil, List.append_nil, hsum0, hs]
      omega
    · rw [extract_with_base hbq.ne']
      rfl
    · rw [extract_with_base hbq.ne', hflat,
        List.filter_cons_of_pos (by norm_num)]
      have hnil0 : (extractLevel (0, JsVal.arr (H0.map .num))).filter
          (fun r => decide (r.level = -1)) = [] := by
        rw [List.filter_eq_nil_iff]
        intro r hr
        rw [extractLevel_level 0 _ r hr]
        simp only [decide_eq_true_eq]
        omega
      rw [hnil0]
      rfl
    · intro d hd
      have hd0 : d = 0 := by omega
      subst hd0
      rw [extract_with_base hbq.ne', hflat,
        List.filter_cons_of_neg (by norm_num)]
      have hall0 : (extractLevel (0, JsVal.arr (H0.map .num))).filter
          (fun r => decide (r.level = ((0:ℕ) : ℤ))) =
          extractLevel (0, JsVal.arr (H0.map .num)) := by
        rw [List.filter_eq_self]
        intro r hr
        rw [extractLevel_level 0 _ r hr]
        simp
      rw [hall0, hsum0]
      norm_num
  | succ k =>
    obtain ⟨L1, hL1, hL1len, hL1sh⟩ := levelOneMap_ok hg H0 hH0some
    have harr1 : Shaped b 2 (.arr L1) :=
      Shaped.node L1 1 (hL1len.trans hH0len) hL1sh
    obtain ⟨higher, hhigher, hhlen, hhsh⟩ := buildHigherLevels_ok hg hb k 1
      (.arr L1) harr1
    have henum : (JsVal.arr (H0.map .num) :: JsVal.arr L1 :: higher).enum =
        (0, JsVal.arr (H0.map .num)) :: (1, JsVal.arr L1) ::
          higher.enumFrom 2 := by
      simp [List.enum, List.enumFrom]
    have h2 : (extractLevel (1, .arr L1)).length = b^2 :=
      @extractLevel_succ_length b 0 (.arr L1) harr1
    have hshape2 : ∀ j (hj : j < higher.length),
        Shaped b (2+1+j) (higher.get ⟨j, hj⟩) := by
      intro j hj
      have := hhsh j hj
      have heq : 1 + 2 + j = 2 + 1 + j := by omega
      rw [heq] at this
      exact this
    refine ⟨⟨some bq, .arr (H0.map .num) :: .arr L1 :: higher⟩,
      ?_, ?_, ?_, ?_, ?_⟩
    · show (do
        let H0' ← generateBaseFrequencies (some bq) n mode cr
        (do
          let L1' ← levelOneMap
            (fun f => generateBaseFrequencies f n mode cr) H0'
          let higher' ← buildHigherLevels
            (fun f => generateBaseFrequencies f n mode cr) (.arr L1') k
          pure (⟨some bq, .arr (H0'.map .num) :: .arr L1' :: higher'⟩ :
            HarmonicStructure))) = _
      rw [hH0, exceptBind_ok, hL1, exceptBind_ok, hhigher, exceptBind_ok]
      rfl
    · rw [extract_with_base hbq.ne']
      rw [List.length_cons]
      have hext : ((JsVal.arr (H0.map .num) :: JsVal.arr L1 :: higher).enum.flatMap
          extractLevel).length =
          b + (b^2 + ((List.range higher.length).map (fun j => b^(2+1+j))).sum) := by
        rw [henum]
        rw [List.flatMap_cons, List.flatMap_cons, List.length_append,
          List.length_append, hsum0]
        rw [h2]
        rw [extract_enumFrom_higher_length higher 2 (by omega) hshape2]
      rw [hext, hhlen]
      have hrhs : ((List.range (k+1+1)).map (fun d => b^(d+1))).sum =
          b + (b^2 + ((List.range k).map (fun j => b^(2+1+j))).sum) := by
        have hc : (List.range (k+1+1)).map (fun d => b^(d+1)) =
            (List.range (k+1+1)).map (fun d => b^(1+d)) := by
          apply List.map_congr_left
          intro d _
          exact pow_congr_exp b (by omega)
        rw [hc, range_pow_sum_succ b 1 (k+1), pow_one]
        congr 1
        have hc2 : (List.range (k+1)).map (fun j => b^(1+1+j)) =
            (List.range (k+1)).map (fun j => b^(2+j)) := by
          apply List.map_congr_left
          intro j _
          exact pow_congr_exp b (by omega)
        rw [hc2, range_pow_sum_succ b 2 k]
      rw [hrhs]
      omega
    · rw [extract_with_base hbq.ne']
      rfl
    · rw [extract_with_base hbq.ne', henum, List.flatMap_cons,
        List.flatMap_cons, List.filter_cons_of_pos (by norm_num),
        List.filter_append, List.filter_append]
      have hnilX : ∀ (i : ℕ) (v : JsVal), (extractLevel (i, v)).filter
          (fun r => decide (r.level = -1)) = [] := by
        intro i v
        rw [List.filter_eq_nil_iff]
        intro r hr
        rw [extractLevel_level i v r hr]
        simp only [decide_eq_true_eq]
        omega
      have hnilF : ((higher.enumFrom 2).flatMap extractLevel).filter
          (fun r => decide (r.level = -1)) = [] := by
        rw [List.filter_eq_nil_iff]
        intro r hr
        obtain ⟨p, hp, hpr⟩ := List.mem_flatMap.mp hr
        rw [extractLevel_level p.1 p.2 r hpr]
        simp only [decide_eq_true_eq]
        omega
      rw [hnilX 0 _, hnilX 1 _, hnilF]
      rfl
    · intro d hd
      rw [extract_with_base hbq.ne', henum, List.flatMap_cons,
        List.flatMap_cons, ← List.singleton_append, List.filter_append,
        List.filter_append, List.filter_append, List.length_append,
        List.length_append, List.length_append]
      have hb1 : ((([⟨some bq, -1, [], "Base"⟩] : List FreqRecord)).filter
          (fun r => decide (r.level = (d : ℤ)))).length = 0 := by
        rw [filter_level_const_length (show ∀ r ∈ ([⟨some bq, -1, [], "Base"⟩] :
            List FreqRecord), r.level = -1 from by
          intro r hr
          rw [List.mem_singleton] at hr
          rw [hr]) ((d : ℕ) : ℤ)]
        rw [if_neg (by omega)]
      rw [hb1,
        filter_level_const_length (extractLevel_level 0 (.arr (H0.map .num)))
          ((d : ℕ) : ℤ),
        filter_level_const_length (extractLevel_level 1 (.arr L1))
          ((d : ℕ) : ℤ),
        filter_level_enumFrom_length higher 2 (by omega) hshape2 d,
        hsum0, h2]
      by_cases h0 : d = 0
      · subst h0
        rw [if_pos rfl, if_neg (by omega), if_neg (by omega)]
        norm_num
      · by_cases h1 : d = 1
        · subst h1
          rw [if_neg (by omega), if_pos rfl, if_neg (by omega)]
          norm_num
        · rw [if_neg (by omega), if_neg (by omega),
            if_pos (by rw [hhlen]; omega)]
          omega

theorem C1_witness :
    (0:ℚ) < 440 ∧ (1:ℕ) ≤ 3 ∧ (1:ℕ) ≤ 3 ∧
    ∃ st, generateHarmonicStructure (some 440) 1 3 "harmonic" none = .ok st ∧
      (extractAllFrequenciesWithPaths st).length =
        1 + ((List.range (1+1)).map
          (fun d => (effectiveBreadth 3 "harmonic" none)^(d+1))).sum ∧
      (extractAllFrequenciesWithPaths st).head? =
        some ⟨some 440, -1, [], "Base"⟩ ∧
      ((extractAllFrequenciesWithPaths st).filter
        (fun r => decide (r.level = -1))).length = 1 ∧
      (∀ d : ℕ, d < 1 + 1 →
        ((extractAllFrequenciesWithPaths st).filter
          (fun r => decide (r.level = (d : ℤ)))).length =
          (effectiveBreadth 3 "harmonic" none)^(d+1)) :=
  ⟨by norm_num, by omega, by omega,
    C1_record_count 440 (by norm_num) 1 3 (by omega) (by omega) "harmonic"
      none (Or.inl rfl)⟩

/-! ### NaN handling (C6) -/

theorem jsMul_none_left (x : JSNum) : jsMul none x = none := by
  cases x <;> rfl

theorem generate_nan_outputs (n : ℕ) (mode : String) (cr : Option (List JSNum))
    (hmode : mode = "harmonic" ∨ mode = "just" ∨ mode = "equal" ∨
      (mode = "custom" ∧ cr.isSome)) :
    ∃ l, generateBaseFrequencies none n mode cr = .ok l ∧
      (∀ x ∈ l, x = none) ∧ l.length = effectiveBreadth n mode cr := by
  obtain ⟨l, hok, hlen⟩ := generateBaseFrequencies_length none n mode cr hmode
  refine ⟨l, hok, ?_, hlen⟩
  rcases hmode with h | h | h | ⟨h, hcr⟩ <;> subst h
  · rw [generateBaseFrequencies_harmonic] at hok
    cases hok
    intro x hx
    simp only [generateHarmonicSeries, List.mem_map] at hx
    obtain ⟨i, _, hi⟩ := hx
    rw [← hi]
    rfl
  · rw [generateBaseFrequencies_just] at hok
    cases hok
    intro x hx
    simp only [List.mem_map] at hx
    obtain ⟨r, _, hr⟩ := hx
    rw [← hr]
    rfl
  · rw [generateBaseFrequencies_equal] at hok
    cases hok
    intro x hx
    simp only [List.mem_map] at hx
    obtain ⟨r, _, hr⟩ := hx
    rw [← hr]
    rfl
  · obtain ⟨rs, hrs⟩ := Option.isSome_iff_exists.mp hcr
    subst hrs
    rw [generateBaseFrequencies_custom] at hok
    cases hok
    intro x hx
    simp only [List.mem_map] at hx
    obtain ⟨r, _, hr⟩ := hx
    rw [← hr]
    exact jsMul_none_left r

theorem generate_total (n : ℕ) (mode : String) (cr : Option (List JSNum))
    (hmode : mode = "harmonic" ∨ mode = "just" ∨ mode = "equal" ∨
      (mode = "custom" ∧ cr.isSome)) :
    ∀ f, ∃ l, generateBaseFrequencies f n mode cr = .ok l := by
  intro f
  rcases hmode with h | h | h | ⟨h, hcr⟩ <;> subst h
  · exact ⟨_, generateBaseFrequencies_harmonic f n cr⟩
  · exact ⟨_, generateBaseFrequencies_just f n cr⟩
  · exact ⟨_, generateBaseFrequencies_equal f n cr⟩
  · obtain ⟨rs, hrs⟩ := Option.isSome_iff_exists.mp hcr
    subst hrs
    exact ⟨_, generateBaseFrequencies_custom f n rs⟩

theorem leafMap_total {gen : JSNum → Except String (List JSNum)}
    (hg : ∀ f, ∃ l, gen f = .ok l) :
    ∀ (data : List JsVal), ∃ ys, leafMap gen data = .ok ys := by
  intro data
  induction data with
  | nil => exact ⟨[], rfl⟩
  | cons v vs ih =>
    obtain ⟨ys, hys⟩ := ih
    cases v with
    | num x =>
      cases x with
      | some q =>
        obtain ⟨fs, hfs⟩ := hg (some q)
        exact ⟨_, by simp only [leafMap, hfs, hys, exceptBind_ok]; rfl⟩
      | none => exact ⟨_, by simp only [leafMap, hys, exceptBind_ok]; rfl⟩
    | arr xs => exact ⟨_, by simp only [leafMap, hys, exceptBind_ok]; rfl⟩

mutual

/-- Totality proof for `processNestedLevel` under a total tuning rule
(defined by structural recursion alongside the function itself). -/
def processNestedLevel_total {gen : JSNum → Except String (List JSNum)}
    (hg : ∀ f, ∃ l, gen f = .ok l) :
    ∀ (v : JsVal), ∃ w, processNestedLevel gen v = .ok w
  | .num _ => ⟨.arr [], rfl⟩
  | .arr data => by
    obtain ⟨ws, hws⟩ := nestedMap_total hg data
    obtain ⟨ys, hys⟩ := leafMap_total hg data
    cases hh : data.head? with
    | none =>
      refine ⟨.arr ws, ?_⟩
      simp only [processNestedLevel, hh, hws, exceptBind_ok]
      rfl
    | some v0 =>
      cases v0 with
      | num x =>
        refine ⟨.arr ys, ?_⟩
        simp only [processNestedLevel, hh, hys, exceptBind_ok]
        rfl
      | arr s0 =>
        refine ⟨.arr ws, ?_⟩
        simp only [processNestedLevel, hh, hws, exceptBind_ok]
        rfl

/-- Totality proof for `nestedMap` under a total tuning rule. -/
def nestedMap_total {gen : JSNum → Except String (List JSNum)}
    (hg : ∀ f, ∃ l, gen f = .ok l) :
    ∀ (data : List JsVal), ∃ ws, nestedMap gen data = .ok ws
  | [] => ⟨[], rfl⟩
  | v :: vs => by
    obtain ⟨w, hw⟩ := processNestedLevel_total hg v
    obtain ⟨ws, hws⟩ := nestedMap_total hg vs
    exact ⟨w :: ws, by simp only [nestedMap, hw, hws, exceptBind_ok]; rfl⟩

end

theorem levelOneMap_total {gen : JSNum → Except String (List JSNum)}
    (hg : ∀ f, ∃ l, gen f = .ok l) :
    ∀ (H0 : List JSNum), ∃ L1, levelOneMap gen H0 = .ok L1 := by
  intro H0
  induction H0 with
  | nil => exact ⟨[], rfl⟩
  | cons v vs ih =>
    obtain ⟨ys, hys⟩ := ih
    cases v with
    | some q =>
      obtain ⟨fs, hfs⟩ := hg (some q)
      exact ⟨_, by simp only [levelOneMap, hfs, hys, exceptBind_ok]; rfl⟩
    | none => exact ⟨ys, by simp only [levelOneMap, hys]⟩

theorem buildHigherLevels_total {gen : JSNum → Except String (List JSNum)}
    (hg : ∀ f, ∃ l, gen f = .ok l) :
    ∀ (k : ℕ) (prev : JsVal), ∃ ls, buildHigherLevels gen prev k = .ok ls := by
  intro k
  induction k with
  | zero => exact fun _ => ⟨[], rfl⟩
  | succ m ih =>
    intro prev
    obtain ⟨next, hnext⟩ := processNestedLevel_total hg prev
    obtain ⟨ls, hls⟩ := ih next
    refine ⟨next :: ls, ?_⟩
    simp only [buildHigherLevels, hnext, hls, exceptBind_ok]
    rfl

theorem generateHarmonicStructure_total (baseFreq : JSNum)
    (maxLevel n : ℕ) (mode : String) (cr : Option (List JSNum))
    (hmode : mode = "harmonic" ∨ mode = "just" ∨ mode = "equal" ∨
      (mode = "custom" ∧ cr.isSome)) :
    ∃ st, generateHarmonicStructure baseFreq maxLevel n mode cr = .ok st := by
  have hg := generate_total n mode cr hmode
  obtain ⟨H0, hH0⟩ := hg baseFreq
  cases maxLevel with
  | zero =>
    refine ⟨⟨baseFreq, [.arr (H0.map .num)]⟩, ?_⟩
    show Except.map _ (generateBaseFrequencies baseFreq n mode cr) = _
    rw [hH0]
    rfl
  | succ k =>
    obtain ⟨L1, hL1⟩ := levelOneMap_total hg H0
    obtain ⟨higher, hhigher⟩ := buildHigherLevels_total hg k (.arr L1)
    refine ⟨⟨baseFreq, .arr (H0.map .num) :: .arr L1 :: higher⟩, ?_⟩
    show (do
      let H0' ← generateBaseFrequencies baseFreq n mode cr
      (do
        let L1' ← levelOneMap
          (fun f => generateBaseFrequencies f n mode cr) H0'
        let higher' ← buildHigherLevels
          (fun f => generateBaseFrequencies f n mode cr) (.arr L1') k
        pure (⟨baseFreq, .arr (H0'.map .num) :: .arr L1' :: higher'⟩ :
          HarmonicStructure))) = _
    rw [hH0, exceptBind_ok, hL1, exceptBind_ok, hhigher, exceptBind_ok]
    rfl

theorem processLevel_frequency_isSome (li : ℕ) :
    ∀ (d : ℕ) (v : JsVal) (path : List ℕ) (r : FreqRecord),
      r ∈ processLevel li d v path → r.frequency.isSome := by
  intro d
  induction d with
  | zero =>
    intro v path r hr
    cases v with
    | num x => simp [processLevel] at hr
    | arr data =>
      simp only [processLevel, List.mem_filterMap] at hr
      obtain ⟨p, _, hp⟩ := hr
      rcases p with ⟨i, w⟩
      cases w with
      | num x =>
        cases x with
        | some q => cases hp; rfl
        | none => simp at hp
      | arr _ => simp at hp
  | succ m ih =>
    intro v path r hr
    cases v with
    | num x => simp [processLevel] at hr
    | arr data =>
      simp only [processLevel, List.mem_flatMap] at hr
      obtain ⟨p, _, hp⟩ := hr
      rcases p with ⟨i, w⟩
      cases w with
      | num x => simp at hp
      | arr sub => exact ih (.arr sub) (path ++ [i]) r hp

theorem extract_frequency_isSome (s : HarmonicStructure) :
    ∀ r ∈ extractAllFrequenciesWithPaths s, r.frequency.isSome := by
  intro r hr
  unfold extractAllFrequenciesWithPaths at hr
  split at hr
  · simp at hr
  · rw [List.mem_append] at hr
    rcases hr with hr | hr
    · rcases hs : s.base with _ | q
      · rw [hs] at hr; simp at hr
      · rw [hs] at hr
        simp only [List.mem_singleton] at hr
        subst hr
        rfl
    · rw [List.mem_flatMap] at hr
      obtain ⟨p, _, hp⟩ := hr
      rcases p with ⟨i, v⟩
      unfold extractLevel at hp
      split at hp
      · simp at hp
      · cases i with
        | zero =>
          cases v with
          | num _ => simp at hp
          | arr lvl =>
            rw [List.mem_filterMap] at hp
            obtain ⟨q, _, hq⟩ := hp
            rcases q with ⟨j, w⟩
            cases w with
            | num x =>
              cases x with
              | some f => cases hq; rfl
              | none => simp at hq
            | arr _ => simp at hq
        | succ li =>
          exact processLevel_frequency_isSome (li+1) (li+1) v [] r hp

/-- C6: with `NaN` as the frequency, `TuningRule.generate` returns its
outputs without throwing (every entry is `NaN`, of the usual length);
`StructureGenerator.build` never throws for any base (including `NaN`); and
`extractAllFrequenciesWithPaths` never emits a record whose frequency is
`NaN`, for any structure whatsoever — degenerate values are filtered, never
raised as errors. -/
theorem C6_nan_filtering (n maxLevel : ℕ) (mode : String)
    (cr : Option (List JSNum))
    (hmode : mode = "harmonic" ∨ mode = "just" ∨ mode = "equal" ∨
      (mode = "custom" ∧ cr.isSome)) :
    (∃ l, generateBaseFrequencies none n mode cr = .ok l ∧
      (∀ x ∈ l, x = none) ∧ l.length = effectiveBreadth n mode cr) ∧
    (∀ baseFreq, ∃ st,
      generateHarmonicStructure baseFreq maxLevel n mode cr = .ok st) ∧
    (∀ s : HarmonicStructure, ∀ r ∈ extractAllFrequenciesWithPaths s,
      r.frequency.isSome) :=
  ⟨generate_nan_outputs n mode cr hmode,
   fun baseFreq =>
     generateHarmonicStructure_total baseFreq maxLevel n mode cr hmode,
   extract_frequency_isSome⟩

theorem C6_witness :
    ("harmonic" = "harmonic" ∨ "harmonic" = "just" ∨ "harmonic" = "equal" ∨
      ("harmonic" = "custom" ∧ (none : Option (List JSNum)).isSome)) ∧
    ((∃ l, generateBaseFrequencies none 3 "harmonic" none = .ok l ∧
      (∀ x ∈ l, x = none) ∧ l.length = effectiveBreadth 3 "harmonic" none) ∧
    (∀ baseFreq, ∃ st,
      generateHarmonicStructure baseFreq 1 3 "harmonic" none = .ok st) ∧
    (∀ s : HarmonicStructure, ∀ r ∈ extractAllFrequenciesWithPaths s,
      r.frequency.isSome)) :=
  ⟨Or.inl rfl, C6_nan_filtering 3 1 "harmonic" none (Or.inl rfl)⟩

/-! ### Proximity analysis (`findCloseFrequencies`) -/

/-- The `closePairs.push({...})` objects of `findCloseFrequencies`
(App.js lines 273-281). -/
structure ClosePair where
  freq1 : ℚ
  freq2 : ℚ
  path1 : String
  path2 : String
  difference : ℚ
  level1 : ℤ
  level2 : ℤ
deriving DecidableEq

/-- All index pairs `i < j` of a list, in the enumeration order of the source
double loop (`i` outer, `j` inner). -/
def ijPairs {α : Type _} : List α → List (α × α)
  | [] => []
  | x :: xs => (xs.map (fun y => (x, y))) ++ ijPairs xs

/-- The loop body of `findCloseFrequencies` applied to all `i < j` pairs
(App.js lines 256-284): invalid (`NaN`) entries are skipped, and a pair is
kept iff `relDiff < threshold && relDiff > 0`. -/
def closePairsOf (records : List FreqRecord) (threshold : ℚ) :
    List ClosePair :=
  (ijPairs records).filterMap (fun p =>
    match p.1.frequency, p.2.frequency with
    | some q1, some q2 =>
        if |q1 - q2| / max q1 q2 < threshold ∧ |q1 - q2| / max q1 q2 > 0 then
          some ⟨q1, q2, p.1.pathString, p.2.pathString,
            |q1 - q2| / max q1 q2, p.1.level, p.2.level⟩
        else none
    | _, _ => none)

/-- `findCloseFrequencies` (App.js lines 252-287). -/
def findCloseFrequencies (s : HarmonicStructure) (threshold : ℚ) :
    List ClosePair :=
  closePairsOf (extractAllFrequenciesWithPaths s) threshold

/-- C4: the proximity scan keeps exactly the unordered pairs (in `(i,j)`
enumeration order) with `0 < relativeDifference < threshold` — soundness,
completeness, the `findCloseFrequencies`/`closePairsOf` link, and the
concrete instance: base 440, harmonic, breadth 12, depth 0, threshold 1/100
yields no pairs. -/
theorem C4_close_pairs (records : List FreqRecord) (t : ℚ) :
    (∀ p ∈ closePairsOf records t,
      0 < p.difference ∧ p.difference < t ∧
      p.difference = |p.freq1 - p.freq2| / max p.freq1 p.freq2) ∧
    (∀ a b, (a, b) ∈ ijPairs records → ∀ q1 q2, a.frequency = some q1 →
      b.frequency = some q2 → 0 < |q1 - q2| / max q1 q2 →
      |q1 - q2| / max q1 q2 < t →
      (⟨q1, q2, a.pathString, b.pathString, |q1 - q2| / max q1 q2,
        a.level, b.level⟩ : ClosePair) ∈ closePairsOf records t) ∧
    (∀ s, findCloseFrequencies s t =
      closePairsOf (extractAllFrequenciesWithPaths s) t) ∧
    Except.map (fun st => findCloseFrequencies st (1/100))
      (generateHarmonicStructure (some 440) 0 12 "harmonic" none) =
        .ok [] := by
  refine ⟨?_, ?_, fun s => rfl, ?_⟩
  · intro p hp
    unfold closePairsOf at hp
    rw [List.mem_filterMap] at hp
    obtain ⟨⟨a, b⟩, _, hab⟩ := hp
    rcases ha : a.frequency with _ | q1
    · rw [ha] at hab; simp at hab
    rcases hb : b.frequency with _ | q2
    · rw [ha, hb] at hab; simp at hab
    rw [ha, hb] at hab
    simp only at hab
    by_cases hc : (|q1 - q2| / max q1 q2 < t ∧ |q1 - q2| / max q1 q2 > 0)
    · rw [if_pos hc] at hab
      cases hab
      exact ⟨hc.2, hc.1, rfl⟩
    · rw [if_neg hc] at hab
      cases hab
  · intro a b hmem q1 q2 ha hb h0 ht
    unfold closePairsOf
    rw [List.mem_filterMap]
    refine ⟨(a, b), hmem, ?_⟩
    simp only [ha, hb]
    rw [if_pos ⟨ht, h0⟩]
  · have hst : generateHarmonicStructure (some 440) 0 12 "harmonic" none =
        .ok ⟨some 440,
          [.arr ((generateHarmonicSeries (some 440) 12).map .num)]⟩ := rfl
    rw [hst]
    show Except.ok (findCloseFrequencies _ (1/100)) = Except.ok []
    congr 1
    have hH0 : generateHarmonicSeries (some 440) 12 =
        [some 440, some 880, some 1320, some 1760, some 2200, some 2640,
         some 3080, some 3520, some 3960, some 4400, some 4840,
         some 5280] := by
      unfold generateHarmonicSeries
      rw [show List.range 12 = [0,1,2,3,4,5,6,7,8,9,10,11] from rfl]
      norm_num [jsMul]
    rw [show findCloseFrequencies
        ⟨some 440, [.arr ((generateHarmonicSeries (some 440) 12).map .num)]⟩
        (1/100) =
      closePairsOf (extractAllFrequenciesWithPaths
        ⟨some 440, [.arr ((generateHarmonicSeries (some 440) 12).map .num)]⟩)
        (1/100) from rfl]
    rw [hH0, extract_with_base (by norm_num)]
    norm_num [extractLevel, List.enum, List.enumFrom, JsVal.truthy,
      closePairsOf, ijPairs, List.filterMap]

theorem C4_witness :
    (⟨200, 300, "x", "y", |(200:ℚ) - 300| / max 200 300, 0, 0⟩ : ClosePair) ∈
      closePairsOf [⟨some 200, 0, [0], "x"⟩, ⟨some 300, 0, [1], "y"⟩]
        (1/2) := by
  have h := (C4_close_pairs
    [⟨some 200, 0, [0], "x"⟩, ⟨some 300, 0, [1], "y"⟩] (1/2)).2.1
    ⟨some 200, 0, [0], "x"⟩ ⟨some 300, 0, [1], "y"⟩
    (by simp [ijPairs]) 200 300 rfl rfl (by norm_num) (by norm_num)
  exact h

/-! ### Rational approximation (`analyzeFrequencyRatios`) -/

/-- A JS arithmetic result as it flows through the ratio analysis: a
finite value, a signed infinity, or `NaN`.  The analyzed frequencies are
finite rationals (`NaN` pairs are skipped by the validity check), but
`freq2 / freq1` divides by zero whenever the denominator frequency is `0`,
producing `±Infinity` or `NaN` exactly as JS does. -/
inductive JsDivVal where
  | fin (q : ℚ)
  | posInf
  | negInf
  | nan
deriving DecidableEq

/-- JS division `a / b` on finite operands: IEEE semantics at the zero
denominator (`ℚ` has a single zero, matching the `+0` the generator
produces). -/
def jsDiv (a b : ℚ) : JsDivVal :=
  if b = 0 then
    if 0 < a then .posInf else if a < 0 then .negInf else .nan
  else .fin (a / b)

/-- `freq1 < freq2 ? freq1/freq2 : freq2/freq1` (App.js lines 306-308). -/
def actualRatioOf (q1 q2 : ℚ) : JsDivVal :=
  if q1 < q2 then jsDiv q1 q2 else jsDiv q2 q1

/-- JS `Math.abs(actualRatio - ratio)` for a finite candidate `ratio`:
finite when `actualRatio` is, `Infinity` on either infinity, `NaN` on
`NaN`. -/
def absDiff (r : JsDivVal) (q : ℚ) : JsDivVal :=
  match r with
  | .fin a => .fin |a - q|
  | .posInf => .posInf
  | .negInf => .posInf
  | .nan => .nan

/-- JS `<` on these values: every comparison against `NaN` is false,
`Infinity` is below nothing, `-Infinity` is below everything except
itself and `NaN`. -/
def jsLt : JsDivVal → JsDivVal → Bool
  | .nan, _ => false
  | _, .nan => false
  | .fin x, .fin y => decide (x < y)
  | .fin _, .posInf => true
  | .fin _, .negInf => false
  | .posInf, _ => false
  | .negInf, .negInf => false
  | .negInf, _ => true

/-- The candidate fractions of the exhaustive search (App.js lines 314-326),
in source enumeration order: `denom` ascending in `[1, maxDenominator]`,
`num` ascending in `[1, denom]`, keeping reduced fractions only. -/
def ratioCands (maxDenominator : ℕ) : List (ℕ × ℕ) :=
  (List.range' 1 maxDenominator).flatMap (fun denom =>
    ((List.range' 1 denom).filter (fun num => gcd num denom = 1)).map
      (fun num => (num, denom)))

/-- The value `num / denom` of a candidate. -/
def candRatio (c : ℕ × ℕ) : ℚ := (c.1 : ℚ) / (c.2 : ℚ)

/-- One iteration of the best-candidate search (App.js lines 317-323):
`if (diff < bestDiff) { bestDiff = diff; bestRatio = [num, denom] }`.
`bestDiff` starts as `Infinity` and `bestRatio` as `[0, 0]`; a `diff` of
`Infinity` or `NaN` never satisfies the JS `<`, so such steps keep the
state. -/
def ratioStep (actualRatio : JsDivVal) (st : JsDivVal × (ℕ × ℕ))
    (c : ℕ × ℕ) : JsDivVal × (ℕ × ℕ) :=
  if jsLt (absDiff actualRatio (candRatio c)) st.1 = true
  then (absDiff actualRatio (candRatio c), c)
  else st

/-- The inner exhaustive search of `analyzeFrequencyRatios`
(App.js lines 310-326). -/
def findBestRatio (actualRatio : JsDivVal) (maxDenominator : ℕ) :
    JsDivVal × (ℕ × ℕ) :=
  (ratioCands maxDenominator).foldl (ratioStep actualRatio)
    (.posInf, (0, 0))

/-- The `ratios.push({...})` objects of `analyzeFrequencyRatios`
(App.js lines 328-336); `difference = .posInf` is the untouched
`Infinity` sentinel. -/
structure RatioEntry where
  freq1 : ℚ
  freq2 : ℚ
  path1 : String
  path2 : String
  actualRatio : JsDivVal
  simpleRatio : ℕ × ℕ
  difference : JsDivVal
deriving DecidableEq

/-- `analyzeFrequencyRatios` (App.js lines 289-341): all `i < j` pairs among
the first 100 records, skipping invalid (`NaN`) entries; the JS division
computing `actualRatio` is modelled by `jsDiv`, including its `±Infinity`
and `NaN` outcomes at a zero denominator. -/
def analyzeFrequencyRatios (s : HarmonicStructure) (maxDenominator : ℕ) :
    List RatioEntry :=
  (ijPairs ((extractAllFrequenciesWithPaths s).take 100)).filterMap (fun p =>
    match p.1.frequency, p.2.frequency with
    | some q1, some q2 =>
        some ⟨q1, q2, p.1.pathString, p.2.pathString, actualRatioOf q1 q2,
          (findBestRatio (actualRatioOf q1 q2) maxDenominator).2,
          (findBestRatio (actualRatioOf q1 q2) maxDenominator).1⟩
    | _, _ => none)

/-- Ascending `(denominator, numerator)` order on candidates. -/
def candLt (c c' : ℕ × ℕ) : Prop :=
  c.2 < c'.2 ∨ (c.2 = c'.2 ∧ c.1 < c'.1)

theorem candLt_asymm {c c' : ℕ × ℕ} (h : candLt c c') (h' : candLt c' c) :
    False := by
  rcases h with h | ⟨h1, h2⟩ <;> rcases h' with h' | ⟨h1', h2'⟩ <;> omega

theorem candLt_irrefl (c : ℕ × ℕ) : ¬ candLt c c := by
  intro h
  rcases h with h | ⟨_, h⟩ <;> omega

theorem gcd_eq_natGcd (a b : ℕ) : gcd a b = Nat.gcd a b := by
  induction b using Nat.strong_induction_on generalizing a with
  | _ b ih =>
    by_cases hb : b = 0
    · subst hb
      rw [gcd.eq_def]
      simp
    · rw [gcd.eq_def, if_neg hb]
      rw [ih (a % b) (Nat.mod_lt _ (Nat.pos_of_ne_zero hb)) b]
      rw [Nat.gcd_comm b (a % b), ← Nat.gcd_rec b a, Nat.gcd_comm]

theorem mem_ratioCands {maxD : ℕ} {c : ℕ × ℕ} :
    c ∈ ratioCands maxD ↔
      1 ≤ c.1 ∧ c.1 ≤ c.2 ∧ c.2 ≤ maxD ∧ Nat.gcd c.1 c.2 = 1 := by
  rcases c with ⟨num, denom⟩
  simp only [ratioCands, List.mem_flatMap, List.mem_map, List.mem_filter,
    List.mem_range'_1]
  constructor
  · rintro ⟨d, ⟨hd1, hd2⟩, num', ⟨⟨hn1, hn2⟩, hg⟩, heq⟩
    cases heq
    rw [gcd_eq_natGcd] at hg
    refine ⟨hn1, by omega, by omega, by simpa using hg⟩
  · rintro ⟨h1, h2, h3, h4⟩
    refine ⟨denom, ⟨by omega, by omega⟩, num, ⟨⟨h1, by omega⟩, ?_⟩, rfl⟩
    rw [gcd_eq_natGcd]
    simpa using h4

theorem ratioCands_pairwise (maxD : ℕ) :
    List.Pairwise candLt (ratioCands maxD) := by
  induction maxD with
  | zero => exact List.Pairwise.nil
  | succ m ih =>
    rw [ratioCands, List.range'_1_concat, List.flatMap_append]
    rw [List.pairwise_append]
    refine ⟨ih, ?_, ?_⟩
    · simp only [List.flatMap_cons, List.flatMap_nil, List.append_nil]
      rw [List.pairwise_map]
      have hlt : List.Pairwise (· < ·) ((List.range' 1 (1+m)).filter
          (fun num => gcd num (1+m) = 1)) :=
        List.Pairwise.sublist (List.filter_sublist _)
          (List.pairwise_lt_range' 1 (1+m) 1 (by omega))
      exact hlt.imp (fun h => Or.inr ⟨rfl, h⟩)
    · intro a ha b hb
      have ha' := (@mem_ratioCands m a).mp ha
      simp only [List.flatMap_cons, List.flatMap_nil, List.append_nil,
        List.mem_map, List.mem_filter, List.mem_range'_1] at hb
      obtain ⟨num, _, heq⟩ := hb
      rw [← heq]
      exact Or.inl (by omega)

theorem ratioCands_ne_nil {maxD : ℕ} (h : 1 ≤ maxD) :
    (1, 1) ∈ ratioCands maxD := by
  rw [mem_ratioCands]
  exact ⟨le_refl 1, le_refl 1, h, by decide⟩

/-- On a finite `actualRatio` and a finite running best, one search step is
the plain rational comparison. -/
theorem ratioStep_fin (r b : ℚ) (c0 c : ℕ × ℕ) :
    ratioStep (.fin r) (.fin b, c0) c =
      if |r - candRatio c| < b then (.fin |r - candRatio c|, c)
      else (.fin b, c0) := by
  have hcond : jsLt (absDiff (.fin r) (candRatio c))
      ((JsDivVal.fin b, c0)).1 = true ↔ |r - candRatio c| < b := by
    show jsLt (.fin |r - candRatio c|) (.fin b) = true ↔ _
    simp [jsLt]
  rw [ratioStep]
  by_cases hx : |r - candRatio c| < b
  · rw [if_pos (hcond.mpr hx), if_pos hx]
    rfl
  · rw [if_neg (fun hc => hx (hcond.mp hc)), if_neg hx]

theorem foldl_ratioStep_spec (r : ℚ) :
    ∀ (l : List (ℕ × ℕ)) (b : ℚ) (c0 : ℕ × ℕ),
      (l.foldl (ratioStep (.fin r)) (.fin b, c0) = (.fin b, c0) ∧
        ∀ x ∈ l, b ≤ |r - candRatio x|) ∨
      (∃ l1 x l2, l = l1 ++ x :: l2 ∧
        l.foldl (ratioStep (.fin r)) (.fin b, c0) =
          (.fin |r - candRatio x|, x) ∧
        |r - candRatio x| < b ∧
        (∀ y ∈ l1, |r - candRatio x| < |r - candRatio y|) ∧
        (∀ y ∈ l2, |r - candRatio x| ≤ |r - candRatio y|)) := by
  intro l
  induction l with
  | nil => exact fun b c0 => Or.inl ⟨rfl, by simp⟩
  | cons x xs ih =>
    intro b c0
    by_cases hx : |r - candRatio x| < b
    · have hstep : ratioStep (.fin r) (.fin b, c0) x =
          (.fin |r - candRatio x|, x) := by
        rw [ratioStep_fin, if_pos hx]
      rcases ih |r - candRatio x| x with ⟨heq, hall⟩ | ⟨l1, y, l2, hsplit, heq, hlt, h1, h2⟩
      · refine Or.inr ⟨[], x, xs, by simp, ?_, hx, by simp, hall⟩
        rw [List.foldl_cons, hstep, heq]
      · refine Or.inr ⟨x :: l1, y, l2, by rw [hsplit]; rfl, ?_,
          lt_trans hlt hx, ?_, h2⟩
        · rw [List.foldl_cons, hstep, heq]
        · intro z hz
          rcases List.mem_cons.mp hz with hz | hz
          · subst hz; exact hlt
          · exact h1 z hz
    · have hstep : ratioStep (.fin r) (.fin b, c0) x = (.fin b, c0) := by
        rw [ratioStep_fin, if_neg hx]
      rcases ih b c0 with ⟨heq, hall⟩ | ⟨l1, y, l2, hsplit, heq, hlt, h1, h2⟩
      · refine Or.inl ⟨?_, ?_⟩
        · rw [List.foldl_cons, hstep, heq]
        · intro z hz
          rcases List.mem_cons.mp hz with hz | hz
          · subst hz; exact le_of_not_lt hx
          · exact hall z hz
      · refine Or.inr ⟨x :: l1, y, l2, by rw [hsplit]; rfl, ?_,
          hlt, ?_, h2⟩
        · rw [List.foldl_cons, hstep, heq]
        · intro z hz
          rcases List.mem_cons.mp hz with hz | hz
          · subst hz
            exact lt_of_lt_of_le hlt (le_of_not_lt hx)
          · exact h1 z hz

theorem findBestRatio_spec (r : ℚ) (maxD : ℕ) (h : 1 ≤ maxD) :
    ∃ c l1 l2, findBestRatio (.fin r) maxD = (.fin |r - candRatio c|, c) ∧
      ratioCands maxD = l1 ++ c :: l2 ∧
      (∀ y ∈ l1, |r - candRatio c| < |r - candRatio y|) ∧
      (∀ y ∈ l2, |r - candRatio c| ≤ |r - candRatio y|) := by
  have hne : ratioCands maxD ≠ [] := by
    intro hnil
    have hmem := ratioCands_ne_nil h
    rw [hnil] at hmem
    simp at hmem
  obtain ⟨c1, rest, hcons⟩ := List.exists_cons_of_ne_nil hne
  have hfold : findBestRatio (.fin r) maxD =
      rest.foldl (ratioStep (.fin r)) (.fin |r - candRatio c1|, c1) := by
    rw [findBestRatio, hcons, List.foldl_cons]
    rfl
  rcases foldl_ratioStep_spec r rest |r - candRatio c1| c1 with
    ⟨heq, hall⟩ | ⟨l1, x, l2, hsplit, heq, hlt, h1, h2⟩
  · exact ⟨c1, [], rest, by rw [hfold, heq], by rw [hcons]; rfl,
      by simp, hall⟩
  · refine ⟨x, c1 :: l1, l2, by rw [hfold, heq], ?_, ?_, h2⟩
    · rw [hcons, hsplit]
      rfl
    · intro y hy
      rcases List.mem_cons.mp hy with hy | hy
      · subst hy; exact hlt
      · exact h1 y hy

theorem findBestRatio_props (r : ℚ) (maxD : ℕ) (h : 1 ≤ maxD) :
    (findBestRatio (.fin r) maxD).2 ∈ ratioCands maxD ∧
    (findBestRatio (.fin r) maxD).1 =
      .fin |r - candRatio (findBestRatio (.fin r) maxD).2| ∧
    (∀ c ∈ ratioCands maxD,
      |r - candRatio (findBestRatio (.fin r) maxD).2| ≤ |r - candRatio c|) ∧
    (∀ c ∈ ratioCands maxD, candLt c (findBestRatio (.fin r) maxD).2 →
      |r - candRatio (findBestRatio (.fin r) maxD).2| < |r - candRatio c|) := by
  obtain ⟨c, l1, l2, hres, hsplit, h1, h2⟩ := findBestRatio_spec r maxD h
  have hsnd : (findBestRatio (.fin r) maxD).2 = c := by rw [hres]
  have hpw := ratioCands_pairwise maxD
  rw [hsplit, List.pairwise_append, List.pairwise_cons] at hpw
  obtain ⟨_, ⟨hc_l2, _⟩, hcross⟩ := hpw
  have hl1c : ∀ y ∈ l1, candLt y c :=
    fun y hy => hcross y hy c (List.mem_cons_self c l2)
  rw [hsnd]
  refine ⟨?_, ?_, ?_, ?_⟩
  · rw [hsplit]
    exact List.mem_append_right l1 (List.mem_cons_self c l2)
  · rw [hres]
  · intro c' hc'
    rw [hsplit] at hc'
    rcases List.mem_append.mp hc' with hc' | hc'
    · exact le_of_lt (h1 c' hc')
    · rcases List.mem_cons.mp hc' with hc' | hc'
      · subst hc'; exact le_refl _
      · exact h2 c' hc'
  · intro c' hc' hlt
    rw [hsplit] at hc'
    rcases List.mem_append.mp hc' with hc' | hc'
    · exact h1 c' hc'
    · rcases List.mem_cons.mp hc' with hc' | hc'
      · subst hc'
        exact absurd hlt (candLt_irrefl c')
      · exact absurd hlt (fun hlt => candLt_asymm hlt (hc_l2 c' hc'))

theorem findBestRatio_half (maxD : ℕ) (h : 2 ≤ maxD) :
    findBestRatio (.fin (1/2)) maxD = (.fin 0, (1, 2)) := by
  obtain ⟨c, l1, l2, hres, hsplit, hl1, hl2⟩ :=
    findBestRatio_spec (1/2) maxD (by omega)
  obtain ⟨hmem, _, hmin, _⟩ := findBestRatio_props (1/2) maxD (by omega)
  have hsnd : (findBestRatio (.fin (1/2)) maxD).2 = c := by rw [hres]
  rw [hsnd] at hmem hmin
  have h12 : (1, 2) ∈ ratioCands maxD := by
    rw [mem_ratioCands]
    exact ⟨by omega, by omega, h, by decide⟩
  have hle := hmin (1, 2) h12
  have hc12 : candRatio (1, 2) = 1/2 := by norm_num [candRatio]
  rw [hc12] at hle
  have habs0 : |(1:ℚ)/2 - 1/2| = 0 := by norm_num
  rw [habs0] at hle
  have hz : |(1:ℚ)/2 - candRatio c| = 0 :=
    le_antisymm hle (abs_nonneg _)
  have hval : candRatio c = 1/2 := by
    have := abs_eq_zero.mp hz
    linarith
  obtain ⟨hn1, hn2, hn3, hn4⟩ := mem_ratioCands.mp hmem
  have hd0 : (0:ℚ) < (c.2:ℚ) := by
    have : 1 ≤ c.2 := le_trans hn1 hn2
    exact_mod_cast this
  have hnd : (c.2:ℚ) = 2 * (c.1:ℚ) := by
    rw [candRatio] at hval
    field_simp at hval
    linarith
  have hdn : c.2 = 2 * c.1 := by exact_mod_cast hnd
  have hgcd : Nat.gcd c.1 c.2 = c.1 := Nat.gcd_eq_left ⟨2, by omega⟩
  have hfst : c.1 = 1 := by rw [hgcd] at hn4; exact hn4
  have hpair : c = (1, 2) := by
    rcases c with ⟨n, d⟩
    simp only at hfst hdn
    simp [hfst, hdn]
  rw [hres, hpair, hc12, habs0]

/-- On a non-finite `actualRatio` every candidate difference is `Infinity`
or `NaN`, the JS `<` never fires, and the search returns the untouched
initialization `(Infinity, [0, 0])`. -/
theorem findBestRatio_nonfin (a : JsDivVal) (ha : ∀ q : ℚ, ¬ a = .fin q)
    (maxD : ℕ) : findBestRatio a maxD = (.posInf, (0, 0)) := by
  have hstep : ∀ (st : JsDivVal × (ℕ × ℕ)) (c : ℕ × ℕ),
      ratioStep a st c = st := by
    intro st c
    obtain ⟨s1, s2⟩ := st
    have hc : ¬ (jsLt (absDiff a (candRatio c)) ((s1, s2)).1 = true) := by
      cases a with
      | fin q => exact absurd rfl (ha q)
      | posInf =>
        show ¬ jsLt JsDivVal.posInf s1 = true
        cases s1 <;> simp [jsLt]
      | negInf =>
        show ¬ jsLt JsDivVal.posInf s1 = true
        cases s1 <;> simp [jsLt]
      | nan =>
        show ¬ jsLt JsDivVal.nan s1 = true
        simp [jsLt]
    rw [ratioStep, if_neg hc]
  have hfold : ∀ (l : List (ℕ × ℕ)) (st : JsDivVal × (ℕ × ℕ)),
      l.foldl (ratioStep a) st = st := by
    intro l
    induction l with
    | nil => exact fun st => rfl
    | cons c t ih =>
      intro st
      rw [List.foldl_cons, hstep st c, ih st]
  rw [findBestRatio, hfold]

/-- The source's branch computes exactly `min/max` under JS division. -/
theorem actualRatioOf_eq_min_max (q1 q2 : ℚ) :
    actualRatioOf q1 q2 = jsDiv (min q1 q2) (max q1 q2) := by
  rw [actualRatioOf]
  by_cases h : q1 < q2
  · rw [if_pos h, min_eq_left (le_of_lt h), max_eq_right (le_of_lt h)]
  · rw [if_neg h, min_eq_right (le_of_not_lt h), max_eq_left (le_of_not_lt h)]

theorem analyze_mem_spec (s : HarmonicStructure) (maxD : ℕ) :
    ∀ e ∈ analyzeFrequencyRatios s maxD,
      e.actualRatio = actualRatioOf e.freq1 e.freq2 ∧
      e.simpleRatio = (findBestRatio e.actualRatio maxD).2 ∧
      e.difference = (findBestRatio e.actualRatio maxD).1 := by
  intro e he
  unfold analyzeFrequencyRatios at he
  rw [List.mem_filterMap] at he
  obtain ⟨⟨a, b⟩, _, hab⟩ := he
  rcases ha : a.frequency with _ | q1
  · rw [ha] at hab; simp at hab
  rcases hb : b.frequency with _ | q2
  · rw [ha, hb] at hab; simp at hab
  rw [ha, hb] at hab
  simp only [Option.some.injEq] at hab
  subst hab
  exact ⟨rfl, rfl, rfl⟩

/-- A structure whose flattened records are `1, 0, -1`: the pair `(0, -1)`
makes the source divide `-1` by `0`. -/
def c5CexStructure : HarmonicStructure :=
  ⟨some 1, [.arr [.num (some 0), .num (some (-1))]]⟩

/-- The entry the pair `(0, -1)` produces: `actualRatio = -Infinity`, so no
candidate ever beats the initial `Infinity` and the sentinel survives. -/
def c5CexEntry : RatioEntry :=
  ⟨0, -1, pathStringOf 0 [0], pathStringOf 0 [1], .negInf, (0, 0), .posInf⟩

/-- C5 counterexample: the claim promises that every analyzed pair gets a
reduced fraction with `1 ≤ numerator ≤ denominator ≤ maxDenominator`
minimizing the distance.  On records `1, 0, -1` the pair `(0, -1)` has
`actualRatio = (-1)/0 = -Infinity` in JS; every candidate difference is
`Infinity`, `Infinity < Infinity` is false, and the entry keeps the
sentinel `[0, 0]` with difference `Infinity` — not a fraction with
`1 ≤ numerator`, and not in the candidate list. -/
theorem C5_counterexample :
    c5CexEntry ∈ analyzeFrequencyRatios c5CexStructure 1 ∧
    c5CexEntry.simpleRatio = (0, 0) ∧
    ¬ 1 ≤ c5CexEntry.simpleRatio.1 ∧
    c5CexEntry.simpleRatio ∉ ratioCands 1 ∧
    c5CexEntry.difference = .posInf := by
  refine ⟨?_, rfl, by decide, ?_, rfl⟩
  case refine_2 =>
    intro hmem
    have h1 := (mem_ratioCands.mp hmem).1
    simp [c5CexEntry] at h1
  rw [show analyzeFrequencyRatios c5CexStructure 1 =
    [⟨1, 0, "Base", pathStringOf 0 [0], .fin 0, (1, 1), .fin 1⟩,
     ⟨1, -1, "Base", pathStringOf 0 [1], .fin (-1), (1, 1), .fin 2⟩,
     c5CexEntry] from ?_]
  · simp
  · norm_num [analyzeFrequencyRatios, c5CexStructure, c5CexEntry,
      extractAllFrequenciesWithPaths, extractLevel, jsNumFalsy, JsVal.truthy,
      List.enum, List.enumFrom, ijPairs, findBestRatio, ratioCands,
      ratioStep, candRatio, List.range', gcd_eq_natGcd, List.filterMap,
      actualRatioOf, jsDiv, absDiff, jsLt]

/-- C5 (amended): every analyzed pair records
`actualRatio = min(freq1, freq2) / max(freq1, freq2)` under JS division.
Whenever that value is finite, `simpleRatio` is a reduced candidate
fraction minimizing `|actualRatio - num/denom|` — the first such in
ascending `(denominator, numerator)` order — and `difference` is that
finite minimum; when the division yields `±Infinity` or `NaN` (the larger
frequency is `0`), the search never updates and the entry keeps the
sentinel `[0, 0]` with difference `Infinity`.  For `actualRatio = 1/2`
and `maxDenominator ≥ 2` the search returns `(1, 2)` with error `0`. -/
theorem C5_rational_approximator (s : HarmonicStructure) (maxD : ℕ)
    (h : 1 ≤ maxD) :
    (∀ e ∈ analyzeFrequencyRatios s maxD,
      e.actualRatio = jsDiv (min e.freq1 e.freq2) (max e.freq1 e.freq2) ∧
      (∀ r : ℚ, e.actualRatio = .fin r →
        e.simpleRatio ∈ ratioCands maxD ∧
        e.difference = .fin |r - candRatio e.simpleRatio| ∧
        (∀ c ∈ ratioCands maxD,
          |r - candRatio e.simpleRatio| ≤ |r - candRatio c|) ∧
        (∀ c ∈ ratioCands maxD, candLt c e.simpleRatio →
          |r - candRatio e.simpleRatio| < |r - candRatio c|)) ∧
      ((∀ r : ℚ, ¬ e.actualRatio = .fin r) →
        e.simpleRatio = (0, 0) ∧ e.difference = .posInf)) ∧
    (2 ≤ maxD → findBestRatio (.fin (1/2)) maxD = (.fin 0, (1, 2))) := by
  constructor
  · intro e he
    obtain ⟨har, hsr, hdiff⟩ := analyze_mem_spec s maxD e he
    refine ⟨by rw [har, actualRatioOf_eq_min_max], ?_, ?_⟩
    · intro r hr
      rw [hr] at hsr hdiff
      obtain ⟨hmem, hval, hmin, hfirst⟩ := findBestRatio_props r maxD h
      rw [← hsr] at hmem hval hmin hfirst
      exact ⟨hmem, by rw [hdiff, hval], hmin, hfirst⟩
    · intro hnf
      have hres := findBestRatio_nonfin e.actualRatio hnf maxD
      exact ⟨by rw [hsr, hres], by rw [hdiff, hres]⟩
  · exact findBestRatio_half maxD

theorem C5_witness :
    (1:ℕ) ≤ 2 ∧ findBestRatio (.fin (1/2)) 2 = (.fin 0, (1, 2)) :=
  ⟨by omega, (C5_rational_approximator ⟨some 1, []⟩ 2 (by omega)).2
    (by omega)⟩

/-- A structure whose flattened records are `2, 0, -2`: the pair `(0, -2)`
divides by zero. -/
def c10CexStructure : HarmonicStructure :=
  ⟨some 2, [.arr [.num (some 0), .num (some (-2))]]⟩

def c10CexEntry : RatioEntry :=
  ⟨0, -2, pathStringOf 0 [0], pathStringOf 0 [1], .negInf, (0, 0), .posInf⟩

/-- C10 counterexample: the claim says the initialization sentinel
`(numerator 0, denominator 0, difference Infinity)` is unreachable in the
output whenever `maxDenominator ≥ 1`.  On records `2, 0, -2` the pair
`(0, -2)` gives `actualRatio = (-2)/0 = -Infinity`; every candidate
difference is `Infinity` and never satisfies the JS `<`, so the returned
entry carries exactly that sentinel. -/
theorem C10_counterexample :
    (1:ℕ) ≤ 1 ∧
    c10CexEntry ∈ analyzeFrequencyRatios c10CexStructure 1 ∧
    c10CexEntry.simpleRatio = (0, 0) ∧
    c10CexEntry.difference = .posInf := by
  refine ⟨le_refl 1, ?_, rfl, rfl⟩
  rw [show analyzeFrequencyRatios c10CexStructure 1 =
    [⟨2, 0, "Base", pathStringOf 0 [0], .fin 0, (1, 1), .fin 1⟩,
     ⟨2, -2, "Base", pathStringOf 0 [1], .fin (-1), (1, 1), .fin 2⟩,
     c10CexEntry] from ?_]
  · simp
  · norm_num [analyzeFrequencyRatios, c10CexStructure, c10CexEntry,
      extractAllFrequenciesWithPaths, extractLevel, jsNumFalsy, JsVal.truthy,
      List.enum, List.enumFrom, ijPairs, findBestRatio, ratioCands,
      ratioStep, candRatio, List.range', gcd_eq_natGcd, List.filterMap,
      actualRatioOf, jsDiv, absDiff, jsLt]

/-- C10 (amended): whenever `maxDenominator ≥ 1`, an entry whose
`actualRatio` is finite carries a genuine best fraction —
`1 ≤ numerator ≤ denominator ≤ maxDenominator`, reduced, not the sentinel,
with a finite `difference` — because the candidate `1/1` is always
examined.  But an entry whose pair divides by zero (`actualRatio` is
`±Infinity` or `NaN`) keeps exactly the initialization sentinel `[0, 0]`
with `difference = Infinity`: the sentinel is reachable. -/
theorem C10_ratio_entry_sound (s : HarmonicStructure) (maxD : ℕ)
    (h : 1 ≤ maxD) :
    ∀ e ∈ analyzeFrequencyRatios s maxD,
      (∀ r : ℚ, e.actualRatio = .fin r →
        1 ≤ e.simpleRatio.1 ∧ e.simpleRatio.1 ≤ e.simpleRatio.2 ∧
        e.simpleRatio.2 ≤ maxD ∧
        Nat.gcd e.simpleRatio.1 e.simpleRatio.2 = 1 ∧
        e.simpleRatio ≠ (0, 0) ∧
        e.difference = .fin |r - candRatio e.simpleRatio|) ∧
      ((∀ r : ℚ, ¬ e.actualRatio = .fin r) →
        e.simpleRatio = (0, 0) ∧ e.difference = .posInf) := by
  intro e he
  obtain ⟨har, hsr, hdiff⟩ := analyze_mem_spec s maxD e he
  constructor
  · intro r hr
    rw [hr] at hsr hdiff
    obtain ⟨hmem, hval, _, _⟩ := findBestRatio_props r maxD h
    rw [← hsr] at hmem hval
    obtain ⟨h1, h2, h3, h4⟩ := mem_ratioCands.mp hmem
    refine ⟨h1, h2, h3, h4, ?_, by rw [hdiff, hval]⟩
    intro hzero
    rw [hzero] at h1
    simp at h1
  · intro hnf
    have hres := findBestRatio_nonfin e.actualRatio hnf maxD
    exact ⟨by rw [hsr, hres], by rw [hdiff, hres]⟩

/-- Concrete structure used to exhibit a finite-ratio analysis entry. -/
def c10Structure : HarmonicStructure := ⟨some 100, [.arr [.num (some 200)]]⟩

/-- The single entry `analyzeFrequencyRatios` produces on `c10Structure`
with `maxDenominator = 1`. -/
def c10Entry : RatioEntry :=
  ⟨100, 200, "Base", pathStringOf 0 [0], .fin (1/2), (1, 1), .fin (1/2)⟩

theorem c10Entry_mem : c10Entry ∈ analyzeFrequencyRatios c10Structure 1 := by
  rw [show analyzeFrequencyRatios c10Structure 1 = [c10Entry] from ?_]
  · exact List.mem_singleton.mpr rfl
  · norm_num [analyzeFrequencyRatios, c10Structure, c10Entry,
      extractAllFrequenciesWithPaths, extractLevel, jsNumFalsy, JsVal.truthy,
      List.enum, List.enumFrom, ijPairs, findBestRatio, ratioCands,
      ratioStep, candRatio, List.range', gcd_eq_natGcd, List.filterMap,
      actualRatioOf, jsDiv, absDiff, jsLt]

theorem C10_witness :
    ((1:ℕ) ≤ 1) ∧ c10Entry ∈ analyzeFrequencyRatios c10Structure 1 ∧
    ((∀ r : ℚ, c10Entry.actualRatio = .fin r →
        1 ≤ c10Entry.simpleRatio.1 ∧
        c10Entry.simpleRatio.1 ≤ c10Entry.simpleRatio.2 ∧
        c10Entry.simpleRatio.2 ≤ 1 ∧
        Nat.gcd c10Entry.simpleRatio.1 c10Entry.simpleRatio.2 = 1 ∧
        c10Entry.simpleRatio ≠ (0, 0) ∧
        c10Entry.difference = .fin |r - candRatio c10Entry.simpleRatio|) ∧
      ((∀ r : ℚ, ¬ c10Entry.actualRatio = .fin r) →
        c10Entry.simpleRatio = (0, 0) ∧ c10Entry.difference = .posInf)) :=
  ⟨le_refl 1, c10Entry_mem,
    C10_ratio_entry_sound c10Structure 1 (le_refl 1) c10Entry c10Entry_mem⟩

/-! ### The lazily-expanded tree (`createFrequencyTree`,
`generateChildrenForNode`, `toggleNode`) -/

/-- A node of the hierarchical tree (the objects built by
`createFrequencyTree` and `generateChildrenForNode`, App.js lines 187-249).
The presentation-only `name` string (a `toFixed` rendering of the value) is
not modelled; every field consulted by the tree logic is kept. -/
inductive TreeNode where
  | mk (id : String) (value : JSNum) (level : ℤ) (nodeType : String)
       (index : Option ℕ) (baseFreq : JSNum) (parentFreq : Option JSNum)
       (recursionIndices : List ℕ) (children : List TreeNode)

def TreeNode.id : TreeNode → String
  | .mk i _ _ _ _ _ _ _ _ => i

def TreeNode.value : TreeNode → JSNum
  | .mk _ v _ _ _ _ _ _ _ => v

def TreeNode.level : TreeNode → ℤ
  | .mk _ _ lv _ _ _ _ _ _ => lv

def TreeNode.nodeType : TreeNode → String
  | .mk _ _ _ nt _ _ _ _ _ => nt

def TreeNode.baseFreq : TreeNode → JSNum
  | .mk _ _ _ _ _ bf _ _ _ => bf

def TreeNode.recursionIndices : TreeNode → List ℕ
  | .mk _ _ _ _ _ _ _ ri _ => ri

def TreeNode.children : TreeNode → List TreeNode
  | .mk _ _ _ _ _ _ _ _ cs => cs

/-- Replace a node's children (the `currentNode.children = newChildren`
mutation of `toggleNode`, App.js line 931). -/
def TreeNode.setChildren : TreeNode → List TreeNode → TreeNode
  | .mk i v lv nt idx bf pf ri _, cs => .mk i v lv nt idx bf pf ri cs

/-- `createFrequencyTree` (App.js lines 187-201): builds the root node; the
remaining parameters are accepted but unused by the source as well. -/
def createFrequencyTree (f : JSNum) (_maxLevel _maxChildren : ℕ)
    (_mode : String) (_customRatios : Option (List JSNum)) : TreeNode :=
  .mk "root" f (-1) "root" none f none [] []

/-- `generateChildrenForNode` (App.js lines 204-249).  A root node generates
`H^0` children with ids `h0-i`; a frequency node at `level` generates
children with ids `h(level+1)-(parent id)-i`, unless `level+1` exceeds
`maxLevel`; any other node type yields `[]`. -/
def generateChildrenForNode (node : TreeNode) (baseFreq : JSNum)
    (maxChildren : ℕ) (mode : String) (maxLevel : ℤ)
    (customRatios : Option (List JSNum)) :
    Except String (List TreeNode) :=
  if node.nodeType = "root" then do
    let h0Frequencies ← generateBaseFrequencies baseFreq maxChildren mode
      customRatios
    pure (h0Frequencies.enum.map (fun p =>
      .mk ("h0-" ++ toString p.1) p.2 0 "frequency" (some p.1) baseFreq none
        [p.1] []))
  else if node.nodeType = "frequency" then
    if node.level + 1 > maxLevel then pure []
    else do
      let frequencies ← generateBaseFrequencies node.value maxChildren mode
        customRatios
      pure (frequencies.enum.map (fun p =>
        .mk ("h" ++ toString (node.level + 1) ++ "-" ++ node.id ++ "-" ++
            toString p.1)
          p.2 (node.level + 1) "frequency" (some p.1) node.baseFreq
          (some node.value) (node.recursionIndices ++ [p.1]) []))
  else pure []

/-- JS `String.prototype.startsWith`. -/
def jsStartsWith (s p : String) : Bool := p.data.isPrefixOf s.data

/-- Substring containment on character lists (JS `String.prototype.includes`
semantics). -/
def listIsInfix (sub : List Char) : List Char → Bool
  | [] => sub.isEmpty
  | c :: t => sub.isPrefixOf (c :: t) || listIsInfix sub t

/-- JS `String.prototype.includes`. -/
def jsIncludes (s sub : String) : Bool := listIsInfix sub.data s.data

/-- The collapse filter of `toggleNode` (App.js lines 917-919):
`id === nodeId || id.startsWith(nodeId + "-") || id.includes("-" + nodeId + "-")`. -/
def collapseMatches (nodeId id : String) : Bool :=
  id = nodeId || jsStartsWith id (nodeId ++ "-") ||
    jsIncludes id ("-" ++ nodeId ++ "-")

mutual

/-- `findAndUpdateNode` inside `toggleNode` (App.js lines 926-946): at the
first node with the target id, materialize children through the tuning rule
if absent; return whether the tree was updated. -/
def findAndUpdateNode (gen : TreeNode → Except String (List TreeNode)) :
    TreeNode → String → Except String (Bool × TreeNode)
  | .mk i v lv nt idx bf pf ri cs, targetId =>
    if i = targetId then
      if cs.isEmpty then do
        let newChildren ← gen (.mk i v lv nt idx bf pf ri cs)
        if newChildren.isEmpty then
          pure (false, .mk i v lv nt idx bf pf ri cs)
        else
          pure (true, .mk i v lv nt idx bf pf ri newChildren)
      else pure (false, .mk i v lv nt idx bf pf ri cs)
    else do
      let r ← findAndUpdateChildren gen cs targetId
      pure (r.1, .mk i v lv nt idx bf pf ri r.2)

/-- The `for (let child of currentNode.children)` loop of
`findAndUpdateNode` (App.js lines 938-944). -/
def findAndUpdateChildren (gen : TreeNode → Except String (List TreeNode)) :
    List TreeNode → String → Except String (Bool × List TreeNode)
  | [], _ => pure (false, [])
  | c :: cs, targetId => do
    let rc ← findAndUpdateNode gen c targetId
    if rc.1 then pure (true, rc.2 :: cs)
    else do
      let rcs ← findAndUpdateChildren gen cs targetId
      pure (rcs.1, rc.2 :: rcs.2)

end

mutual

/-- The `JSON.parse(JSON.stringify(treeData))` deep copy of `toggleNode`
(App.js line 949), modelled as a structural rebuild (on the string, number
and array fields of these nodes the JSON round trip reproduces the value). -/
def deepCopy : TreeNode → TreeNode
  | .mk i v lv nt idx bf pf ri cs => .mk i v lv nt idx bf pf ri (deepCopyList cs)

def deepCopyList : List TreeNode → List TreeNode
  | [] => []
  | c :: cs => deepCopy c :: deepCopyList cs

end

/-- The component state `toggleNode` reads and writes: the expanded-id set
(`expandedNodes`, in insertion order) and the tree (`treeData`). -/
structure TreeState where
  expanded : List String
  tree : TreeNode

/-- `toggleNode` (App.js lines 912-956), parametrized by the child
generator `gen` (the source closes over `baseFreq`, `nHarmonics`, `mode`,
`maxLevel`, `customRatios` and calls `generateChildrenForNode`). -/
def toggleNode (gen : TreeNode → Except String (List TreeNode))
    (s : TreeState) (nodeId : String) : Except String TreeState :=
  if nodeId ∈ s.expanded then
    pure ⟨s.expanded.filter (fun id => !(collapseMatches nodeId id)), s.tree⟩
  else do
    let r ← findAndUpdateNode gen (deepCopy s.tree) nodeId
    pure ⟨s.expanded ++ [nodeId], if r.1 then r.2 else s.tree⟩

mutual

/-- First node with a given id in preorder (the traversal order of
`findAndUpdateNode`); the observer used to state cache-reuse properties. -/
def findNode : TreeNode → String → Option TreeNode
  | .mk i v lv nt idx bf pf ri cs, targetId =>
    if i = targetId then some (.mk i v lv nt idx bf pf ri cs)
    else findNodeList cs targetId

def findNodeList : List TreeNode → String → Option TreeNode
  | [], _ => none
  | c :: cs, targetId =>
    match findNode c targetId with
    | some r => some r
    | none => findNodeList cs targetId

end

mutual

/-- All strict descendants of a node, in preorder. -/
def descendants : TreeNode → List TreeNode
  | .mk _ _ _ _ _ _ _ _ cs => descendantsList cs

def descendantsList : List TreeNode → List TreeNode
  | [] => []
  | c :: cs => c :: descendants c ++ descendantsList cs

end

mutual

/-- The JSON-round-trip copy is the identity on these trees. -/
def deepCopy_eq : ∀ (t : TreeNode), deepCopy t = t
  | .mk i v lv nt idx bf pf ri cs => by
    rw [deepCopy, deepCopyList_eq cs]

def deepCopyList_eq : ∀ (l : List TreeNode), deepCopyList l = l
  | [] => rfl
  | c :: cs => by
    rw [deepCopyList, deepCopy_eq c, deepCopyList_eq cs]

end

mutual

/-- A search that reports no update leaves the tree unchanged. -/
def findAndUpdateNode_false (gen : TreeNode → Except String (List TreeNode))
    (targetId : String) : ∀ (t t' : TreeNode),
      findAndUpdateNode gen t targetId = .ok (false, t') → t' = t
  | .mk i v lv nt idx bf pf ri cs, t', h => by
    rw [findAndUpdateNode] at h
    by_cases hid : i = targetId
    · rw [if_pos hid] at h
      by_cases hcs : cs.isEmpty
      · rw [if_pos hcs] at h
        cases hgen : gen (.mk i v lv nt idx bf pf ri cs) with
        | error e =>
          rw [hgen, exceptBind_error] at h
          exact absurd h (by simp)
        | ok l =>
          rw [hgen, exceptBind_ok] at h
          by_cases hl : l.isEmpty
          · rw [if_pos hl, exceptPure_def] at h
            simp only [Except.ok.injEq, Prod.mk.injEq] at h
            exact h.2.symm
          · rw [if_neg hl, exceptPure_def] at h
            simp only [Except.ok.injEq, Prod.mk.injEq] at h
            exact absurd h.1 (by simp)
      · rw [if_neg hcs, exceptPure_def] at h
        simp only [Except.ok.injEq, Prod.mk.injEq] at h
        exact h.2.symm
    · rw [if_neg hid] at h
      cases hfc : findAndUpdateChildren gen cs targetId with
      | error e =>
        rw [hfc, exceptBind_error] at h
        exact absurd h (by simp)
      | ok r =>
        rcases r with ⟨bb, cs'⟩
        rw [hfc, exceptBind_ok, exceptPure_def] at h
        simp only [Except.ok.injEq, Prod.mk.injEq] at h
        obtain ⟨hb, ht⟩ := h
        rw [← ht, findAndUpdateChildren_false gen targetId cs cs'
          (by rw [hfc, hb])]

def findAndUpdateChildren_false
    (gen : TreeNode → Except String (List TreeNode)) (targetId : String) :
    ∀ (cs : List TreeNode) (cs' : List TreeNode),
      findAndUpdateChildren gen cs targetId = .ok (false, cs') → cs' = cs
  | [], cs', h => by
    rw [findAndUpdateChildren, exceptPure_def] at h
    simp only [Except.ok.injEq, Prod.mk.injEq] at h
    exact h.2.symm
  | c :: cs, cs', h => by
    rw [findAndUpdateChildren] at h
    cases hrc : findAndUpdateNode gen c targetId with
    | error e =>
      rw [hrc, exceptBind_error] at h
      exact absurd h (by simp)
    | ok rc =>
      rcases rc with ⟨bc, c'⟩
      rw [hrc, exceptBind_ok] at h
      cases bc with
      | true =>
        rw [if_pos rfl, exceptPure_def] at h
        simp only [Except.ok.injEq, Prod.mk.injEq] at h
        exact absurd h.1 (by simp)
      | false =>
        rw [if_neg (by simp)] at h
        cases hrcs : findAndUpdateChildren gen cs targetId with
        | error e =>
          rw [hrcs, exceptBind_error] at h
          exact absurd h (by simp)
        | ok rcs =>
          rcases rcs with ⟨bcs, cs''⟩
          rw [hrcs, exceptBind_ok, exceptPure_def] at h
          simp only [Except.ok.injEq, Prod.mk.injEq] at h
          obtain ⟨hb, ht⟩ := h
          rw [← ht,
            findAndUpdateNode_false gen targetId c c' (by rw [hrc]),
            findAndUpdateChildren_false gen targetId cs cs''
              (by rw [hrcs, hb])]

end

/-- How one `findAndUpdateNode` run relates the first node carrying the
target id before (`fnd`) and after (`fnd'`) the run. -/
structure UpdSpec (gen : TreeNode → Except String (List TreeNode))
    (fnd fnd' : Option TreeNode) (b : Bool) : Prop where
  none_eq : fnd = none → fnd' = none
  keep : ∀ n, fnd = some n → n.children ≠ [] → fnd' = some n
  fill : ∀ n, fnd = some n → n.children = [] →
    ∃ l, gen n = .ok l ∧
      fnd' = some (if l.isEmpty then n else n.setChildren l)
  found : b = true → ∃ n, fnd = some n

theorem findNode_mk (i : String) (v : JSNum) (lv : ℤ) (nt : String)
    (idx : Option ℕ) (bf : JSNum) (pf : Option JSNum) (ri : List ℕ)
    (cs : List TreeNode) (targetId : String) :
    findNode (.mk i v lv nt idx bf pf ri cs) targetId =
      if i = targetId then some (.mk i v lv nt idx bf pf ri cs)
      else findNodeList cs targetId := by
  rw [findNode]

theorem findNodeList_cons_some {c : TreeNode} {t : String} {n : TreeNode}
    (cs : List TreeNode) (h : findNode c t = some n) :
    findNodeList (c :: cs) t = some n := by
  rw [findNodeList, h]

theorem findNodeList_cons_none {c : TreeNode} {t : String}
    (cs : List TreeNode) (h : findNode c t = none) :
    findNodeList (c :: cs) t = findNodeList cs t := by
  rw [findNodeList, h]

mutual

/-- The central cache lemma: one `findAndUpdateNode` run materializes the
first node with the target id exactly when its children were absent, and
otherwise leaves that node unchanged. -/
def findAndUpdateNode_spec (gen : TreeNode → Except String (List TreeNode))
    (targetId : String) : ∀ (t : TreeNode) (b : Bool) (t' : TreeNode),
      findAndUpdateNode gen t targetId = .ok (b, t') →
      UpdSpec gen (findNode t targetId) (findNode t' targetId) b
  | .mk i v lv nt idx bf pf ri cs, b, t', h => by
    rw [findAndUpdateNode] at h
    by_cases hid : i = targetId
    · rw [if_pos hid] at h
      rw [findNode_mk, if_pos hid]
      by_cases hcs : cs.isEmpty
      · rw [if_pos hcs] at h
        have hcs' : cs = [] := List.isEmpty_iff.mp hcs
        cases hgen : gen (.mk i v lv nt idx bf pf ri cs) with
        | error e =>
          rw [hgen, exceptBind_error] at h
          exact absurd h (by simp)
        | ok l =>
          rw [hgen, exceptBind_ok] at h
          by_cases hl : l.isEmpty
          · rw [if_pos hl, exceptPure_def] at h
            simp only [Except.ok.injEq, Prod.mk.injEq] at h
            obtain ⟨hb, ht⟩ := h
            refine ⟨by simp, ?_, ?_, by rw [← hb]; simp⟩
            · intro n hn hne
              cases hn
              exact absurd (by simpa [TreeNode.children] using hcs')
                hne
            · intro n hn _
              cases hn
              refine ⟨l, hgen, ?_⟩
              rw [if_pos hl, ← ht, findNode_mk, if_pos hid]
          · rw [if_neg hl, exceptPure_def] at h
            simp only [Except.ok.injEq, Prod.mk.injEq] at h
            obtain ⟨hb, ht⟩ := h
            refine ⟨by simp, ?_, ?_, fun _ => ⟨_, rfl⟩⟩
            · intro n hn hne
              cases hn
              exact absurd (by simpa [TreeNode.children] using hcs')
                hne
            · intro n hn _
              cases hn
              refine ⟨l, hgen, ?_⟩
              rw [if_neg hl, ← ht, findNode_mk]
              rw [show (TreeNode.mk i v lv nt idx bf pf ri cs).setChildren l
                = .mk i v lv nt idx bf pf ri l from rfl]
              rw [if_pos hid]
      · rw [if_neg hcs, exceptPure_def] at h
        simp only [Except.ok.injEq, Prod.mk.injEq] at h
        obtain ⟨hb, ht⟩ := h
        refine ⟨by simp, ?_, ?_, by rw [← hb]; simp⟩
        · intro n hn _
          cases hn
          rw [← ht, findNode_mk, if_pos hid]
        · intro n hn hempty
          cases hn
          rw [show (TreeNode.mk i v lv nt idx bf pf ri cs).children = cs
            from rfl] at hempty
          rw [hempty] at hcs
          exact absurd rfl hcs
    · rw [if_neg hid] at h
      rw [findNode_mk, if_neg hid]
      cases hfc : findAndUpdateChildren gen cs targetId with
      | error e =>
        rw [hfc, exceptBind_error] at h
        exact absurd h (by simp)
      | ok r =>
        rcases r with ⟨bb, cs'⟩
        rw [hfc, exceptBind_ok, exceptPure_def] at h
        simp only [Except.ok.injEq, Prod.mk.injEq] at h
        obtain ⟨hb, ht⟩ := h
        rw [← ht, findNode_mk, if_neg hid, ← hb]
        exact findAndUpdateChildren_spec gen targetId cs bb cs' hfc

/-- List version of `findAndUpdateNode_spec`, mirroring the child loop. -/
def findAndUpdateChildren_spec
    (gen : TreeNode → Except String (List TreeNode)) (targetId : String) :
    ∀ (cs : List TreeNode) (b : Bool) (cs' : List TreeNode),
      findAndUpdateChildren gen cs targetId = .ok (b, cs') →
      UpdSpec gen (findNodeList cs targetId) (findNodeList cs' targetId) b
  | [], b, cs', h => by
    rw [findAndUpdateChildren, exceptPure_def] at h
    simp only [Except.ok.injEq, Prod.mk.injEq] at h
    obtain ⟨hb, ht⟩ := h
    rw [← ht, ← hb]
    exact ⟨fun _ => rfl, fun n hn => absurd hn (by rw [findNodeList]; simp),
      fun n hn => absurd hn (by rw [findNodeList]; simp),
      fun hfalse => absurd hfalse (by simp)⟩
  | c :: cs, b, cs', h => by
    rw [findAndUpdateChildren] at h
    cases hrc : findAndUpdateNode gen c targetId with
    | error e =>
      rw [hrc, exceptBind_error] at h
      exact absurd h (by simp)
    | ok rc =>
      rcases rc with ⟨bc, c'⟩
      rw [hrc, exceptBind_ok] at h
      have nodeIH := findAndUpdateNode_spec gen targetId c bc c' hrc
      cases bc with
      | true =>
        rw [if_pos rfl, exceptPure_def] at h
        simp only [Except.ok.injEq, Prod.mk.injEq] at h
        obtain ⟨hb, ht⟩ := h
        rw [← ht, ← hb]
        cases hfc : findNode c targetId with
        | none =>
          obtain ⟨n, hn⟩ := nodeIH.found rfl
          rw [hfc] at hn
          exact absurd hn (by simp)
        | some n =>
          rw [findNodeList_cons_some cs hfc]
          refine ⟨by simp, ?_, ?_, fun _ => ⟨n, rfl⟩⟩
          · intro n' hn' hne
            cases hn'
            exact findNodeList_cons_some cs (nodeIH.keep n hfc hne)
          · intro n' hn' hempty
            cases hn'
            obtain ⟨l, hgen, hfind⟩ := nodeIH.fill n hfc hempty
            exact ⟨l, hgen, findNodeList_cons_some cs hfind⟩
      | false =>
        rw [if_neg (by simp)] at h
        have hc' : c' = c := findAndUpdateNode_false gen targetId c c' hrc
        cases hrcs : findAndUpdateChildren gen cs targetId with
        | error e =>
          rw [hrcs, exceptBind_error] at h
          exact absurd h (by simp)
        | ok rcs =>
          rcases rcs with ⟨bcs, cs''⟩
          rw [hrcs, exceptBind_ok, exceptPure_def] at h
          simp only [Except.ok.injEq, Prod.mk.injEq] at h
          obtain ⟨hb, ht⟩ := h
          have listIH := findAndUpdateChildren_spec gen targetId cs bcs
            cs'' hrcs
          rw [← ht, ← hb, hc']
          cases hfc : findNode c targetId with
          | none =>
            rw [findNodeList_cons_none cs hfc,
              findNodeList_cons_none cs'' hfc]
            exact listIH
          | some n =>
            rw [findNodeList_cons_some cs hfc,
              findNodeList_cons_some cs'' hfc]
            refine ⟨by simp, ?_, ?_, fun _ => ⟨n, rfl⟩⟩
            · intro n' hn' _
              cases hn'
              rfl
            · intro n' hn' hempty
              cases hn'
              rw [hc'] at nodeIH
              obtain ⟨l, hgen, hfind⟩ := nodeIH.fill n hfc hempty
              refine ⟨l, hgen, ?_⟩
              rw [hfc] at hfind
              exact hfind

end

theorem setChildren_children :
    ∀ (n : TreeNode) (l : List TreeNode), (n.setChildren l).children = l
  | .mk _ _ _ _ _ _ _ _ _, _ => rfl

theorem collapseMatches_self (x : String) : collapseMatches x x = true := by
  simp [collapseMatches]

/-- C8: expand, collapse, re-expand on the same node id yields a children
list identical to the one after the first expand — the children
materialized by the first expand are reused, not regenerated. -/
theorem C8_expand_collapse_expand
    (gen : TreeNode → Except String (List TreeNode)) (s0 : TreeState)
    (nodeId : String) (h0 : nodeId ∉ s0.expanded)
    (s1 s2 s3 : TreeState)
    (h1 : toggleNode gen s0 nodeId = .ok s1)
    (h2 : toggleNode gen s1 nodeId = .ok s2)
    (h3 : toggleNode gen s2 nodeId = .ok s3) :
    (findNode s3.tree nodeId).map TreeNode.children =
      (findNode s1.tree nodeId).map TreeNode.children := by
  rw [toggleNode, if_neg h0, deepCopy_eq] at h1
  cases hf1 : findAndUpdateNode gen s0.tree nodeId with
  | error e =>
    rw [hf1, exceptBind_error] at h1
    exact absurd h1 (by simp)
  | ok r1 =>
    rcases r1 with ⟨b1, t1⟩
    rw [hf1, exceptBind_ok, exceptPure_def] at h1
    simp only [Except.ok.injEq] at h1
    have hs1tree : s1.tree = t1 := by
      rw [← h1]
      cases b1 with
      | true => rfl
      | false =>
        show (if false = true then t1 else s0.tree) = t1
        rw [if_neg (by simp),
          findAndUpdateNode_false gen nodeId s0.tree t1 hf1]
    have hs1exp : s1.expanded = s0.expanded ++ [nodeId] := by
      rw [← h1]
    have hmem1 : nodeId ∈ s1.expanded := by
      rw [hs1exp]
      exact List.mem_append_right _ (List.mem_singleton.mpr rfl)
    rw [toggleNode, if_pos hmem1, exceptPure_def] at h2
    simp only [Except.ok.injEq] at h2
    have hs2tree : s2.tree = s1.tree := by rw [← h2]
    have hs2exp : s2.expanded =
        s1.expanded.filter (fun id => !(collapseMatches nodeId id)) := by
      rw [← h2]
    have hmem2 : nodeId ∉ s2.expanded := by
      intro hmem
      rw [hs2exp] at hmem
      have := List.of_mem_filter hmem
      rw [collapseMatches_self] at this
      simp at this
    rw [toggleNode, if_neg hmem2, deepCopy_eq, hs2tree, hs1tree] at h3
    cases hf3 : findAndUpdateNode gen t1 nodeId with
    | error e =>
      rw [hf3, exceptBind_error] at h3
      exact absurd h3 (by simp)
    | ok r3 =>
      rcases r3 with ⟨b3, t3⟩
      rw [hf3, exceptBind_ok, exceptPure_def] at h3
      simp only [Except.ok.injEq] at h3
      have hs3tree : s3.tree = t3 := by
        rw [← h3]
        cases b3 with
        | true => rfl
        | false =>
          show (if false = true then t3 else t1) = t3
          rw [if_neg (by simp),
            findAndUpdateNode_false gen nodeId t1 t3 hf3]
      have spec1 := findAndUpdateNode_spec gen nodeId s0.tree b1 t1 hf1
      have spec3 := findAndUpdateNode_spec gen nodeId t1 b3 t3 hf3
      rw [hs3tree, hs1tree]
      cases hfnd : findNode s0.tree nodeId with
      | none =>
        rw [spec3.none_eq (spec1.none_eq hfnd), spec1.none_eq hfnd]
      | some n =>
        by_cases hch : n.children = []
        · obtain ⟨l, hgen, hft1⟩ := spec1.fill n hfnd hch
          by_cases hl : l.isEmpty
          · rw [if_pos hl] at hft1
            obtain ⟨l', hgen', hft3⟩ := spec3.fill n hft1 hch
            have hll : l' = l := by
              rw [hgen] at hgen'
              simpa using hgen'.symm
            rw [hll, if_pos hl] at hft3
            rw [hft3, hft1]
          · rw [if_neg hl] at hft1
            have hch' : (n.setChildren l).children ≠ [] := by
              rw [setChildren_children]
              intro hnil
              rw [hnil] at hl
              exact hl rfl
            rw [spec3.keep _ hft1 hch', hft1]
        · have hft1 := spec1.keep n hfnd hch
          rw [spec3.keep n hft1 hch, hft1]

/-- Concrete generator for the C8 witness run: harmonic mode, base 440,
breadth 2, depth cap 1. -/
def c8Gen (n : TreeNode) : Except String (List TreeNode) :=
  generateChildrenForNode n (some 440) 2 "harmonic" 1 none

/-- The two `H^0` children materialized in the C8 witness run. -/
def c8Kids : List TreeNode :=
  [.mk ("h0-" ++ toString 0) (jsMul (some 440) (some ((0:ℕ) + 1 : ℚ))) 0
    "frequency" (some 0) (some 440) none [0] [],
   .mk ("h0-" ++ toString 1) (jsMul (some 440) (some ((1:ℕ) + 1 : ℚ))) 0
    "frequency" (some 1) (some 440) none [1] []]

/-- The root after materialization. -/
def c8Full : TreeNode :=
  .mk "root" (some 440) (-1) "root" none (some 440) none [] c8Kids

theorem c8Gen_root :
    c8Gen (.mk "root" (some 440) (-1) "root" none (some 440) none [] []) =
      .ok c8Kids := by
  rw [c8Gen, generateChildrenForNode]
  rw [show (TreeNode.mk "root" (some 440) (-1) "root" none (some 440) none
    [] []).nodeType = "root" from rfl]
  rw [if_pos rfl, generateBaseFrequencies_harmonic, exceptBind_ok]
  rw [exceptPure_def]
  rw [show generateHarmonicSeries (some 440) 2 =
    [jsMul (some 440) (some ((0:ℕ) + 1 : ℚ)),
     jsMul (some 440) (some ((1:ℕ) + 1 : ℚ))] from rfl]
  rfl

theorem c8_fau1 :
    findAndUpdateNode c8Gen
      (.mk "root" (some 440) (-1) "root" none (some 440) none [] [])
      "root" = .ok (true, c8Full) := by
  rw [findAndUpdateNode, if_pos rfl,
    if_pos (show (([] : List TreeNode).isEmpty = true) from rfl),
    c8Gen_root, exceptBind_ok,
    if_neg (by rw [c8Kids]; simp), exceptPure_def, c8Full]

theorem c8_fau3 :
    findAndUpdateNode c8Gen c8Full "root" = .ok (false, c8Full) := by
  rw [c8Full, findAndUpdateNode, if_pos rfl,
    if_neg (by rw [c8Kids]; simp), exceptPure_def]

theorem c8_toggle1 :
    toggleNode c8Gen
      ⟨[], .mk "root" (some 440) (-1) "root" none (some 440) none [] []⟩
      "root" = .ok ⟨["root"], c8Full⟩ := by
  rw [toggleNode, if_neg (by simp)]
  show (do
    let r ← findAndUpdateNode c8Gen
      (deepCopy (.mk "root" (some 440) (-1) "root" none (some 440) none [] []))
      "root"
    pure (⟨[] ++ ["root"],
      if r.1 then r.2
      else .mk "root" (some 440) (-1) "root" none (some 440) none [] []⟩ :
      TreeState)) = _
  rw [deepCopy_eq, c8_fau1, exceptBind_ok, exceptPure_def]
  rfl

theorem c8_toggle2 :
    toggleNode c8Gen ⟨["root"], c8Full⟩ "root" = .ok ⟨[], c8Full⟩ := by
  rw [toggleNode, if_pos (by simp), exceptPure_def]
  show Except.ok (⟨["root"].filter
    (fun id => !(collapseMatches "root" id)), c8Full⟩ : TreeState) = _
  rw [show (["root"].filter (fun id => !(collapseMatches "root" id))) = []
    from by simp [List.filter, collapseMatches_self]]

theorem c8_toggle3 :
    toggleNode c8Gen ⟨[], c8Full⟩ "root" = .ok ⟨["root"], c8Full⟩ := by
  rw [toggleNode, if_neg (by simp)]
  show (do
    let r ← findAndUpdateNode c8Gen (deepCopy c8Full) "root"
    pure (⟨[] ++ ["root"], if r.1 then r.2 else c8Full⟩ : TreeState)) = _
  rw [deepCopy_eq, c8_fau3, exceptBind_ok, exceptPure_def]
  rfl

theorem C8_witness :
    ("root" ∉ ([] : List String)) ∧
    ((findNode c8Full "root").map TreeNode.children =
      (findNode c8Full "root").map TreeNode.children) :=
  ⟨by simp,
   C8_expand_collapse_expand c8Gen
     ⟨[], .mk "root" (some 440) (-1) "root" none (some 440) none [] []⟩
     "root" (by simp) ⟨["root"], c8Full⟩ ⟨[], c8Full⟩ ⟨["root"], c8Full⟩
     c8_toggle1 c8_toggle2 c8_toggle3⟩

/-! ### C7: collapse and the expanded-id set -/

/-- The id `generateChildrenForNode` gives child number `i` of a parent
(App.js lines 216 and 236). -/
def childIdOf (parent : TreeNode) (i : ℕ) : String :=
  if parent.nodeType = "root" then "h0-" ++ toString i
  else "h" ++ toString (parent.level + 1) ++ "-" ++ parent.id ++ "-" ++
    toString i

/-- Well-formed tree: every child's id is engine-generated from its parent
and every child is a frequency node.  Every tree the app builds
(`createFrequencyTree` root plus `generateChildrenForNode` children)
satisfies this. -/
inductive IdWf : TreeNode → Prop where
  | mk : ∀ (n : TreeNode),
      (∀ c ∈ n.children, ∃ i, c.id = childIdOf n i) →
      (∀ c ∈ n.children, c.nodeType = "frequency") →
      (∀ c ∈ n.children, IdWf c) → IdWf n

theorem listIsInfix_complete :
    ∀ {s sub : List Char}, sub <:+: s → listIsInfix sub s = true := by
  intro s
  induction s with
  | nil =>
    intro sub h
    obtain ⟨u, w, huw⟩ := h
    simp only [List.append_eq_nil] at huw
    rw [huw.1.2, listIsInfix]
    rfl
  | cons c t ih =>
    intro sub h
    rw [listIsInfix]
    rcases List.infix_cons_iff.mp h with hp | hi
    · rw [ List.isPrefixOf_iff_prefix.mpr hp]
      simp
    · rw [ih hi]
      simp

theorem jsIncludes_complete {s sub : String} (h : sub.data <:+: s.data) :
    jsIncludes s sub = true :=
  listIsInfix_complete h

theorem childIdOf_contains_id (parent : TreeNode) (i : ℕ)
    (h : ¬ parent.nodeType = "root") :
    parent.id.data <:+: (childIdOf parent i).data := by
  rw [childIdOf, if_neg h]
  refine ⟨("h" ++ toString (parent.level + 1) ++ "-").data,
    ("-" ++ toString i).data, ?_⟩
  simp [String.data_append, List.append_assoc]

theorem childIdOf_contains_dashed (parent : TreeNode) (i : ℕ)
    (h : ¬ parent.nodeType = "root") :
    ("-" ++ parent.id ++ "-").data <:+: (childIdOf parent i).data := by
  rw [childIdOf, if_neg h]
  refine ⟨("h" ++ toString (parent.level + 1)).data, (toString i).data, ?_⟩
  simp [String.data_append, List.append_assoc]

mutual

/-- The node found by `findNode` carries the searched id. -/
def findNode_id : ∀ (t : TreeNode) (x : String) (n : TreeNode),
    findNode t x = some n → n.id = x
  | .mk i v lv nt idx bf pf ri cs, x, n, h => by
    rw [findNode] at h
    by_cases hix : i = x
    · rw [if_pos hix] at h
      injection h with h
      rw [← h, TreeNode.id]
      exact hix
    · rw [if_neg hix] at h
      exact findNodeList_id cs x n h

def findNodeList_id : ∀ (l : List TreeNode) (x : String) (n : TreeNode),
    findNodeList l x = some n → n.id = x
  | [], x, n, h => by rw [findNodeList] at h; cases h
  | c :: cs, x, n, h => by
    rw [findNodeList] at h
    cases hc : findNode c x with
    | some r =>
      rw [hc] at h
      injection h with h
      rw [← h]
      exact findNode_id c x r hc
    | none =>
      rw [hc] at h
      exact findNodeList_id cs x n h

end

mutual

/-- `findNode` results inherit well-formedness. -/
def findNode_wf : ∀ (t : TreeNode) (x : String) (n : TreeNode),
    IdWf t → findNode t x = some n → IdWf n
  | .mk i v lv nt idx bf pf ri cs, x, n, hwf, h => by
    rw [findNode] at h
    by_cases hix : i = x
    · rw [if_pos hix] at h
      injection h with h
      rw [← h]
      exact hwf
    · rw [if_neg hix] at h
      cases hwf with
      | mk _ hids hnt hch =>
        exact findNodeList_wf cs x n hch h

def findNodeList_wf : ∀ (l : List TreeNode) (x : String) (n : TreeNode),
    (∀ c ∈ l, IdWf c) → findNodeList l x = some n → IdWf n
  | [], _, _, _, h => by rw [findNodeList] at h; cases h
  | c :: cs, x, n, hwf, h => by
    rw [findNodeList] at h
    cases hc : findNode c x with
    | some r =>
      rw [hc] at h
      injection h with h
      rw [← h]
      exact findNode_wf c x r (hwf c (by simp)) hc
    | none =>
      rw [hc] at h
      exact findNodeList_wf cs x n (fun d hd => hwf d (by simp [hd])) h

end

mutual

/-- In a well-formed tree, a non-root node's id is a substring of every
descendant's id. -/
def desc_id_contains : ∀ (c : TreeNode), IdWf c → c.nodeType ≠ "root" →
    ∀ d ∈ descendants c, c.id.data <:+: d.id.data
  | .mk i v lv nt idx bf pf ri cs, hwf, hnr, d, hd => by
    cases hwf with
    | mk _ hids hnt hch =>
      rw [descendants] at hd
      exact descList_id_contains (.mk i v lv nt idx bf pf ri cs) cs hids hnt
        hch hnr d hd

def descList_id_contains : ∀ (p : TreeNode) (l : List TreeNode),
    (∀ c ∈ l, ∃ i, c.id = childIdOf p i) →
    (∀ c ∈ l, c.nodeType = "frequency") →
    (∀ c ∈ l, IdWf c) →
    p.nodeType ≠ "root" →
    ∀ d ∈ descendantsList l, p.id.data <:+: d.id.data
  | p, [], _, _, _, _, d, hd => by rw [descendantsList] at hd; cases hd
  | p, c :: cs, hids, hnt, hch, hnr, d, hd => by
    rw [descendantsList] at hd
    have hcid : p.id.data <:+: c.id.data := by
      obtain ⟨j, hj⟩ := hids c (by simp)
      rw [hj]
      exact childIdOf_contains_id p j hnr
    rcases List.mem_cons.mp hd with hdc | hd'
    · rw [hdc]
      exact hcid
    · rcases List.mem_append.mp hd' with hdd | hdl
      · exact hcid.trans (desc_id_contains c (hch c (by simp))
          (by rw [hnt c (by simp)]; decide) d hdd)
      · exact descList_id_contains p cs (fun e he => hids e (by simp [he]))
          (fun e he => hnt e (by simp [he])) (fun e he => hch e (by simp [he]))
          hnr d hdl

end

theorem descendants_eq :
    ∀ (n : TreeNode), descendants n = descendantsList n.children
  | .mk _ _ _ _ _ _ _ _ cs => by rw [descendants, TreeNode.children]

/-- A member of `descendantsList l` is a member of `l` or a descendant of
one. -/
def descendantsList_mem : ∀ (l : List TreeNode) (d : TreeNode),
    d ∈ descendantsList l → ∃ c ∈ l, d = c ∨ d ∈ descendants c
  | [], d, hd => by rw [descendantsList] at hd; cases hd
  | c :: cs, d, hd => by
    rw [descendantsList] at hd
    rcases List.mem_cons.mp hd with h | h
    · exact ⟨c, by simp, Or.inl h⟩
    · rcases List.mem_append.mp h with h | h
      · exact ⟨c, by simp, Or.inr h⟩
      · obtain ⟨e, he, hh⟩ := descendantsList_mem cs d h
        exact ⟨e, by simp [he], hh⟩

/-- In a well-formed tree, every descendant of a non-root node `n` has
`-n.id-` as a substring of its id — so the collapse filter matches it. -/
theorem collapse_target_contains (n : TreeNode) (hwf : IdWf n)
    (hnr : n.nodeType ≠ "root") :
    ∀ d ∈ descendants n, ("-" ++ n.id ++ "-").data <:+: d.id.data := by
  intro d hd
  rw [descendants_eq] at hd
  cases hwf with
  | mk _ hids hnt hch =>
    obtain ⟨c, hc, hh⟩ := descendantsList_mem n.children d hd
    obtain ⟨j, hj⟩ := hids c hc
    have htc : ("-" ++ n.id ++ "-").data <:+: c.id.data := by
      rw [hj]
      exact childIdOf_contains_dashed n j hnr
    rcases hh with h | h
    · rw [h]
      exact htc
    · exact htc.trans (desc_id_contains c (hch c hc)
        (by rw [hnt c hc]; decide) d h)

/-- The tree used for the C7 counterexample: a root with one materialized
child `h0-0`, exactly as `createFrequencyTree` plus one root expansion
builds it. -/
def c7Child : TreeNode :=
  .mk "h0-0" (some 440) 0 "frequency" (some 0) (some 440) none [0] []

def c7Tree : TreeNode :=
  .mk "root" (some 440) (-1) "root" none (some 440) none [] [c7Child]

/-- C7 counterexample: the claim says collapse removes every descendant id
for every node including the root.  Collapsing the root (which is in the
expanded set together with its child `h0-0`) leaves `h0-0` in the
expanded set: `h0-0` is the id of a descendant of the root, but the
collapse filter `id === nodeId || id.startsWith(nodeId + "-") ||
id.includes("-" + nodeId + "-")` matches none of its disjuncts, because
children of the root are named `h0-i`, with no embedded `-root-`. -/
theorem C7_counterexample :
    toggleNode (fun _ => pure []) ⟨["root", "h0-0"], c7Tree⟩ "root" =
      .ok ⟨["h0-0"], c7Tree⟩ ∧
    c7Child ∈ descendants c7Tree ∧ c7Child.id = "h0-0" ∧
    findNode c7Tree "root" = some c7Tree ∧ c7Tree.nodeType = "root" := by
  refine ⟨?_, ?_, rfl, ?_, rfl⟩
  · rw [toggleNode, if_pos (by simp), exceptPure_def]
    show Except.ok (⟨(["root", "h0-0"]).filter
      (fun id => !(collapseMatches "root" id)), c7Tree⟩ : TreeState) = _
    rw [show ((["root", "h0-0"]).filter
      (fun id => !(collapseMatches "root" id))) = ["h0-0"] from by decide]
  · rw [c7Tree, descendants, descendantsList]
    simp
  · rw [c7Tree, findNode, if_pos rfl]

/-- C7 (amended): collapsing a non-root node of a well-formed tree removes
its id and every descendant id from the expanded set, removes nothing but
collapse-filter matches, and leaves the tree — hence every materialized
children list — unchanged.  At the root the claimed descendant removal
fails (see the counterexample); there only ids matching the filter are
removed and the tree is still unchanged. -/
theorem C7_collapse_behavior
    (gen : TreeNode → Except String (List TreeNode)) (s : TreeState)
    (nodeId : String) (n : TreeNode)
    (hmem : nodeId ∈ s.expanded)
    (hfind : findNode s.tree nodeId = some n)
    (hwf : IdWf s.tree) (hnr : n.nodeType ≠ "root") :
    ∃ s', toggleNode gen s nodeId = .ok s' ∧
      s'.tree = s.tree ∧
      nodeId ∉ s'.expanded ∧
      (∀ d ∈ descendants n, d.id ∉ s'.expanded) ∧
      (∀ x ∈ s'.expanded, x ∈ s.expanded) := by
  refine ⟨⟨s.expanded.filter (fun id => !(collapseMatches nodeId id)),
    s.tree⟩, ?_, rfl, ?_, ?_, ?_⟩
  · rw [toggleNode, if_pos hmem, exceptPure_def]
  · intro hmem'
    have hkeep := List.of_mem_filter hmem'
    rw [collapseMatches_self] at hkeep
    simp at hkeep
  · intro d hd hmem'
    have hkeep := List.of_mem_filter hmem'
    have hid : n.id = nodeId := findNode_id s.tree nodeId n hfind
    have hwfn : IdWf n := findNode_wf s.tree nodeId n hwf hfind
    have hinf := collapse_target_contains n hwfn hnr d hd
    rw [hid] at hinf
    have hmatch : collapseMatches nodeId d.id = true := by
      rw [collapseMatches, jsIncludes_complete hinf]
      simp
    rw [hmatch] at hkeep
    simp at hkeep
  · intro x hx
    exact List.mem_of_mem_filter hx

/-- The three-level well-formed tree of the C7 witness run. -/
def c7wY : TreeNode :=
  .mk "h1-h0-0-0" (some 880) 1 "frequency" (some 0) (some 440)
    (some (some 440)) [0, 0] []

def c7wX : TreeNode :=
  .mk "h0-0" (some 440) 0 "frequency" (some 0) (some 440) none [0] [c7wY]

def c7wTree : TreeNode :=
  .mk "root" (some 440) (-1) "root" none (some 440) none [] [c7wX]

theorem c7wY_wf : IdWf c7wY := by
  refine IdWf.mk c7wY ?_ ?_ ?_ <;> intro c hc <;>
    simp [c7wY, TreeNode.children] at hc

theorem c7wX_wf : IdWf c7wX := by
  refine IdWf.mk c7wX ?_ ?_ ?_ <;> intro c hc <;>
    rw [show c7wX.children = [c7wY] from rfl, List.mem_singleton] at hc <;>
    rw [hc]
  · exact ⟨0, rfl⟩
  · rfl
  · exact c7wY_wf

theorem c7wTree_wf : IdWf c7wTree := by
  refine IdWf.mk c7wTree ?_ ?_ ?_ <;> intro c hc <;>
    rw [show c7wTree.children = [c7wX] from rfl, List.mem_singleton] at hc <;>
    rw [hc]
  · exact ⟨0, rfl⟩
  · rfl
  · exact c7wX_wf

theorem c7w_find : findNode c7wTree "h0-0" = some c7wX := by
  have h1 : findNode c7wX "h0-0" = some c7wX := by
    rw [show c7wX = .mk "h0-0" (some 440) 0 "frequency" (some 0) (some 440)
      none [0] [c7wY] from rfl]
    rw [findNode, if_pos rfl]
  rw [show c7wTree = .mk "root" (some 440) (-1) "root" none (some 440) none
    [] [c7wX] from rfl]
  rw [findNode, if_neg (by decide), findNodeList, h1]

theorem C7_witness :
    ("h0-0" ∈ ["root", "h0-0", "h1-h0-0-0"]) ∧
    ∃ s', toggleNode (fun _ => pure [])
        ⟨["root", "h0-0", "h1-h0-0-0"], c7wTree⟩ "h0-0" = .ok s' ∧
      s'.tree = c7wTree ∧
      "h0-0" ∉ s'.expanded ∧
      (∀ d ∈ descendants c7wX, d.id ∉ s'.expanded) ∧
      (∀ x ∈ s'.expanded, x ∈ ["root", "h0-0", "h1-h0-0-0"]) :=
  ⟨by simp,
   C7_collapse_behavior (fun _ => pure [])
     ⟨["root", "h0-0", "h1-h0-0-0"], c7wTree⟩ "h0-0" c7wX
     (by simp) c7w_find c7wTree_wf (by decide)⟩

/-! ### C9: the layout engine (`calculatePositions`, App.js lines 989-1081) -/

/-- A visible node as produced by `getVisibleNodes` (App.js lines
959-986), restricted to the fields `calculatePositions` consults.  The
`parent` object reference is modelled by the parent's id (`none` for the
root's null parent); positions live in an assoc list with the newest
entry first, which models the in-place `node.x`/`node.y` mutations.
`name`, `value`, `hasChildren` and `isExpanded` are never read by the
layout. -/
structure VisNode where
  id : String
  nodeType : String
  level : ℤ
  parentId : Option String
deriving DecidableEq

abbrev PosEntry := String × ℚ × ℚ

/-- Read a node's current coordinates; an id never written reads
`(0, 0)`, the `x: 0, y: 0` initialization of `getVisibleNodes`. -/
def lookupPos (ps : List PosEntry) (i : String) : ℚ × ℚ :=
  match ps.find? (fun e => decide (e.1 = i)) with
  | some e => e.2
  | none => (0, 0)

/-- The grouping key `node.parent ? node.parent.id : 'none'`. -/
def parentKey (n : VisNode) : String :=
  match n.parentId with
  | some p => p
  | none => "none"

/-- Keys in first-appearance order (JS object insertion order for the
string keys of `nodesByParent` and `nodesByLevel`). -/
def firstDedup : List String → List String
  | [] => []
  | k :: t => k :: (firstDedup t).filter (fun x => decide (x ≠ k))

/-- `Math.max(0, Math.min(1, (60 - totalNodes) / 60))` where
`totalNodes` counts the visible frequency nodes (App.js lines 1009,
1026). -/
def spacingFactor (ns : List VisNode) : ℚ :=
  max 0 (min 1 ((60 -
    ((ns.filter (fun n => decide (n.nodeType = "frequency"))).length : ℚ)) / 60))

/-- `nodeSpacing = minNodeSpacing + (maxNodeSpacing - minNodeSpacing) *
nodeSpacingFactor` with bounds 20 and 50 (App.js line 1027). -/
def nodeSpacingOf (ns : List VisNode) : ℚ := 20 + (50 - 20) * spacingFactor ns

/-- `groupSpacing = minGroupSpacing + (maxGroupSpacing - minGroupSpacing)
* nodeSpacingFactor` with bounds 10 and 40 (App.js line 1028). -/
def groupSpacingOf (ns : List VisNode) : ℚ := 10 + (40 - 10) * spacingFactor ns

/-- One level's nodes grouped by parent key: groups in first-appearance
order of their key, each group in `visibleNodes` order — the
`nodesByParent` object of App.js lines 1038-1046. -/
def levelGroups (ns : List VisNode) (lv : ℤ) : List (List VisNode) :=
  let levelNodes := ns.filter (fun n => decide (n.level = lv))
  (firstDedup (levelNodes.map parentKey)).map
    (fun k => levelNodes.filter (fun n => decide (parentKey n = k)))

/-- `startY` of one sibling group (App.js lines 1061-1067). -/
def startYOf (gy : ℚ) (first : Bool) (py : ℚ) : ℚ :=
  if first then max (-500) (py - 100) else max gy (py - 200)

/-- The entries written for one placed group:
`node.x = parent.x + 250` and `node.y = startY + index * nodeSpacing`
(App.js lines 1069-1072). -/
def groupEntries (nsp x sY : ℚ) (g : List VisNode) : List PosEntry :=
  g.enum.map (fun p => (p.2.id, x, sY + (p.1 : ℚ) * nsp))

/-- The `Object.values(nodesByParent).forEach(siblings => ...)` loop of
one level (App.js lines 1050-1078): empty groups and groups whose first
sibling has a null parent are skipped without touching `isFirstGroup`;
a placed group reads its parent's coordinates, is laid out from
`startYOf`, and advances the cursor
`globalY = max(globalY, startY + groupHeight + groupSpacing)`. -/
def placeGroups (nsp gsp : ℚ) :
    List (List VisNode) → ℚ → Bool → List PosEntry → List PosEntry
  | [], _, _, ps => ps
  | [] :: gs, gy, first, ps => placeGroups nsp gsp gs gy first ps
  | (⟨_, _, _, none⟩ :: _) :: gs, gy, first, ps =>
    placeGroups nsp gsp gs gy first ps
  | (⟨nid, nt, nlv, some pid⟩ :: tl) :: gs, gy, first, ps =>
    placeGroups nsp gsp gs
      (max gy (startYOf gy first (lookupPos ps pid).2 +
        ((((⟨nid, nt, nlv, some pid⟩ : VisNode) :: tl).length : ℚ) - 1) * nsp +
        gsp))
      false
      (groupEntries nsp ((lookupPos ps pid).1 + 250)
        (startYOf gy first (lookupPos ps pid).2)
        ((⟨nid, nt, nlv, some pid⟩ : VisNode) :: tl) ++ ps)

/-- The `rootNode.x = 50; rootNode.y = 200` pin (App.js lines 992-996). -/
def rootEntry (ns : List VisNode) : List PosEntry :=
  match ns.find? (fun n => decide (n.nodeType = "root")) with
  | some r => [(r.id, 50, 200)]
  | none => []

/-- The distinct levels of the visible nodes in ascending order
(`Object.keys(nodesByLevel).map(parseInt).sort((a, b) => a - b)`). -/
def levelsOf (ns : List VisNode) : List ℤ :=
  List.insertionSort (fun a b => a ≤ b) (ns.map (fun n => n.level)).dedup

/-- One iteration of the `levels.forEach` loop: level `-1` is skipped,
any other level lays out its parent groups starting from
`globalY = -10`, `isFirstGroup = true`. -/
def levelStep (ns : List VisNode) (ps : List PosEntry) (lv : ℤ) :
    List PosEntry :=
  if lv = -1 then ps
  else placeGroups (nodeSpacingOf ns) (groupSpacingOf ns) (levelGroups ns lv)
    (-10) true ps

/-- `calculatePositions` (App.js lines 989-1081): pin the root, then lay
out every level in ascending order.  (`totalParentGroups` is computed by
the source but never used afterwards and is omitted.)  Real arithmetic
is modelled exactly over `ℚ`; the ordering facts proved below rest only
on signs and monotonicity. -/
def calculatePositions (ns : List VisNode) : List PosEntry :=
  (levelsOf ns).foldl (levelStep ns) (rootEntry ns)

theorem getq_nil {α : Type _} (i : ℕ) : ([] : List α).get? i = none := by
  cases i <;> rfl

theorem lookupPos_cons_self (i : String) (v : ℚ × ℚ) (ps : List PosEntry) :
    lookupPos ((i, v) :: ps) i = v := by
  rw [lookupPos, List.find?_cons_of_pos _ (by simp)]

theorem lookupPos_cons_ne {j i : String} (h : ¬ j = i) (v : ℚ × ℚ)
    (ps : List PosEntry) :
    lookupPos ((j, v) :: ps) i = lookupPos ps i := by
  rw [lookupPos, List.find?_cons_of_neg _ (by simp [h]), lookupPos]

theorem lookupPos_append_not_mem :
    ∀ (E ps : List PosEntry) (i : String), (∀ e ∈ E, ¬ e.1 = i) →
    lookupPos (E ++ ps) i = lookupPos ps i
  | [], _, _, _ => rfl
  | e :: E, ps, i, h => by
    rcases e with ⟨j, v⟩
    rw [List.cons_append, lookupPos_cons_ne (h (j, v) (by simp)) v (E ++ ps)]
    exact lookupPos_append_not_mem E ps i (fun e he => h e (by simp [he]))

theorem lookup_groupEntriesFrom (nsp x sY : ℚ) :
    ∀ (g : List VisNode) (m k : ℕ) (a : VisNode) (ps : List PosEntry),
    (g.map VisNode.id).Nodup → g.get? k = some a →
    lookupPos (((g.enumFrom m).map
        (fun p => (p.2.id, x, sY + (p.1 : ℚ) * nsp))) ++ ps) a.id =
      (x, sY + ((m + k : ℕ) : ℚ) * nsp)
  | [], m, k, a, ps, _, h => by rw [getq_nil] at h; cases h
  | b :: t, m, k, a, ps, hnd, h => by
    rw [List.enumFrom_cons, List.map_cons, List.cons_append]
    cases k with
    | zero =>
      rw [List.get?_cons_zero] at h
      injection h with h
      rw [← h, lookupPos_cons_self]
      simp
    | succ k =>
      rw [List.get?_cons_succ] at h
      have hbne : ¬ b.id = a.id := by
        intro hSame
        have hmem : a.id ∈ t.map VisNode.id :=
          List.mem_map.mpr ⟨a, List.get?_mem h, rfl⟩
        rw [← hSame] at hmem
        exact (List.nodup_cons.mp (by simpa using hnd)).1 hmem
      rw [lookupPos_cons_ne hbne,
        lookup_groupEntriesFrom nsp x sY t (m + 1) k a ps
          (List.nodup_cons.mp (by simpa using hnd)).2 h,
        show m + 1 + k = m + (k + 1) from by omega]

theorem lookup_groupEntries (nsp x sY : ℚ) (g : List VisNode) (k : ℕ)
    (a : VisNode) (ps : List PosEntry) (hnd : (g.map VisNode.id).Nodup)
    (h : g.get? k = some a) :
    lookupPos (groupEntries nsp x sY g ++ ps) a.id =
      (x, sY + (k : ℚ) * nsp) := by
  have hfrom := lookup_groupEntriesFrom nsp x sY g 0 k a ps hnd h
  rw [show ((0 + k : ℕ) : ℚ) = (k : ℚ) from by norm_num] at hfrom
  rw [groupEntries]
  exact hfrom

theorem groupEntries_ids (nsp x sY : ℚ) (g : List VisNode) :
    ∀ e ∈ groupEntries nsp x sY g, ∃ n ∈ g, e.1 = n.id := by
  intro e he
  rw [groupEntries] at he
  obtain ⟨p, hp, hpe⟩ := List.mem_map.mp he
  exact ⟨p.2, snd_mem_of_mem_enum hp, by rw [← hpe]⟩

theorem placeGroups_entries (nsp gsp : ℚ) :
    ∀ (gs : List (List VisNode)) (gy : ℚ) (first : Bool)
      (ps : List PosEntry),
    ∃ E, placeGroups nsp gsp gs gy first ps = E ++ ps ∧
      ∀ e ∈ E, ∃ g ∈ gs, ∃ n ∈ g, e.1 = n.id
  | [], _, _, ps => ⟨[], rfl, by simp⟩
  | [] :: gs, gy, first, ps => by
    obtain ⟨E, hE, hm⟩ := placeGroups_entries nsp gsp gs gy first ps
    refine ⟨E, by rw [placeGroups, hE], fun e he => ?_⟩
    obtain ⟨g, hg, n, hn, hid⟩ := hm e he
    exact ⟨g, by simp [hg], n, hn, hid⟩
  | (⟨nid, nt, nlv, none⟩ :: tl) :: gs, gy, first, ps => by
    obtain ⟨E, hE, hm⟩ := placeGroups_entries nsp gsp gs gy first ps
    refine ⟨E, by rw [placeGroups, hE], fun e he => ?_⟩
    obtain ⟨g, hg, n, hn, hid⟩ := hm e he
    exact ⟨g, by simp [hg], n, hn, hid⟩
  | (⟨nid, nt, nlv, some pid⟩ :: tl) :: gs, gy, first, ps => by
    obtain ⟨E, hE, hm⟩ := placeGroups_entries nsp gsp gs
      (max gy (startYOf gy first (lookupPos ps pid).2 +
        ((((⟨nid, nt, nlv, some pid⟩ : VisNode) :: tl).length : ℚ) - 1) * nsp +
        gsp))
      false
      (groupEntries nsp ((lookupPos ps pid).1 + 250)
        (startYOf gy first (lookupPos ps pid).2)
        ((⟨nid, nt, nlv, some pid⟩ : VisNode) :: tl) ++ ps)
    refine ⟨E ++ groupEntries nsp ((lookupPos ps pid).1 + 250)
      (startYOf gy first (lookupPos ps pid).2)
      ((⟨nid, nt, nlv, some pid⟩ : VisNode) :: tl), ?_, ?_⟩
    · rw [placeGroups, hE, List.append_assoc]
    · intro e he
      rcases List.mem_append.mp he with h | h
      · obtain ⟨g, hg, n, hn, hid⟩ := hm e h
        exact ⟨g, by simp [hg], n, hn, hid⟩
      · obtain ⟨n, hn, hid⟩ := groupEntries_ids _ _ _ _ e h
        exact ⟨(⟨nid, nt, nlv, some pid⟩ : VisNode) :: tl, by simp, n, hn, hid⟩

theorem placeGroups_spec (nsp gsp : ℚ) :
    ∀ (gs : List (List VisNode)) (gy : ℚ) (first : Bool)
      (ps : List PosEntry),
    ((gs.flatten).map VisNode.id).Nodup →
    ∀ (i : ℕ) (gi : List VisNode) (hdi : VisNode) (ri : List VisNode),
    gs.get? i = some gi → gi = hdi :: ri → hdi.parentId.isSome = true →
    ∃ x sY,
      (∀ k a, gi.get? k = some a →
        lookupPos (placeGroups nsp gsp gs gy first ps) a.id =
          (x, sY + (k : ℚ) * nsp)) ∧
      (first = false → gy ≤ sY) ∧
      (∀ (j : ℕ) (gj : List VisNode) (hdj : VisNode) (rj : List VisNode),
        gs.get? j = some gj → gj = hdj :: rj → hdj.parentId.isSome = true →
        i < j →
        ∃ x2 sY2,
          (∀ k a, gj.get? k = some a →
            lookupPos (placeGroups nsp gsp gs gy first ps) a.id =
              (x2, sY2 + (k : ℚ) * nsp)) ∧
          sY + ((gi.length : ℚ) - 1) * nsp + gsp ≤ sY2)
  | [], gy, first, ps, _, i, gi, hdi, ri, hgi, _, _ => by
    rw [getq_nil] at hgi
    cases hgi
  | [] :: gs, gy, first, ps, hnd, i, gi, hdi, ri, hgi, hshape, hp => by
    have hres : placeGroups nsp gsp ([] :: gs) gy first ps =
        placeGroups nsp gsp gs gy first ps := by rw [placeGroups]
    rw [hres]
    simp only [List.flatten_cons, List.nil_append] at hnd
    cases i with
    | zero =>
      rw [List.get?_cons_zero] at hgi
      injection hgi with hgi
      rw [← hgi] at hshape
      simp at hshape
    | succ i =>
      rw [List.get?_cons_succ] at hgi
      obtain ⟨x, sY, char, hf, hlater⟩ :=
        placeGroups_spec nsp gsp gs gy first ps hnd i gi hdi ri hgi hshape hp
      refine ⟨x, sY, char, hf, ?_⟩
      intro j gj hdj rj hgj hshapej hpj hij
      cases j with
      | zero => omega
      | succ j =>
        rw [List.get?_cons_succ] at hgj
        exact hlater j gj hdj rj hgj hshapej hpj (by omega)
  | (⟨nid, nt, nlv, none⟩ :: tl) :: gs, gy, first, ps, hnd, i, gi, hdi, ri,
      hgi, hshape, hp => by
    have hres : placeGroups nsp gsp
        (((⟨nid, nt, nlv, none⟩ : VisNode) :: tl) :: gs) gy first ps =
        placeGroups nsp gsp gs gy first ps := by rw [placeGroups]
    rw [hres]
    simp only [List.flatten_cons, List.map_append, List.nodup_append] at hnd
    cases i with
    | zero =>
      rw [List.get?_cons_zero] at hgi
      injection hgi with hgi
      rw [← hgi] at hshape
      injection hshape with h1 h2
      rw [← h1] at hp
      simp [VisNode.parentId] at hp
    | succ i =>
      rw [List.get?_cons_succ] at hgi
      obtain ⟨x, sY, char, hf, hlater⟩ :=
        placeGroups_spec nsp gsp gs gy first ps hnd.2.1 i gi hdi ri hgi
          hshape hp
      refine ⟨x, sY, char, hf, ?_⟩
      intro j gj hdj rj hgj hshapej hpj hij
      cases j with
      | zero => omega
      | succ j =>
        rw [List.get?_cons_succ] at hgj
        exact hlater j gj hdj rj hgj hshapej hpj (by omega)
  | (⟨nid, nt, nlv, some pid⟩ :: tl) :: gs, gy, first, ps, hnd, i, gi, hdi,
      ri, hgi, hshape, hp => by
    obtain ⟨g0, hg0⟩ :
        ∃ g, g = (⟨nid, nt, nlv, some pid⟩ : VisNode) :: tl := ⟨_, rfl⟩
    obtain ⟨x, hx⟩ : ∃ q, q = (lookupPos ps pid).1 + 250 := ⟨_, rfl⟩
    obtain ⟨sY, hsY⟩ :
        ∃ q, q = startYOf gy first (lookupPos ps pid).2 := ⟨_, rfl⟩
    obtain ⟨gy2, hgy2⟩ :
        ∃ q, q = max gy (sY + ((g0.length : ℚ) - 1) * nsp + gsp) := ⟨_, rfl⟩
    have hres : placeGroups nsp gsp (g0 :: gs) gy first ps =
        placeGroups nsp gsp gs gy2 false (groupEntries nsp x sY g0 ++ ps) := by
      rw [hgy2, hsY, hx, hg0, placeGroups]
    rw [← hg0] at hgi hnd ⊢
    rw [hres]
    simp only [List.flatten_cons, List.map_append, List.nodup_append] at hnd
    cases i with
    | zero =>
      rw [List.get?_cons_zero] at hgi
      injection hgi with hgi
      subst hgi
      refine ⟨x, sY, ?_, ?_, ?_⟩
      · intro k a hka
        obtain ⟨E, hE, hEids⟩ := placeGroups_entries nsp gsp gs gy2 false
          (groupEntries nsp x sY g0 ++ ps)
        rw [hE, lookupPos_append_not_mem E _ a.id ?_,
          lookup_groupEntries nsp x sY g0 k a ps hnd.1 hka]
        intro e he heq
        obtain ⟨g2, hg2, n, hn, hid⟩ := hEids e he
        refine hnd.2.2 (List.mem_map.mpr ⟨a, List.get?_mem hka, rfl⟩)
          (List.mem_map.mpr ⟨n, List.mem_flatten.mpr ⟨g2, hg2, hn⟩, ?_⟩)
        rw [← hid, heq]
      · intro hf
        rw [hf] at hsY
        rw [hsY, startYOf, if_neg (by simp)]
        exact le_max_left _ _
      · intro j gj hdj rj hgj hshapej hpj hij
        cases j with
        | zero => omega
        | succ j =>
          rw [List.get?_cons_succ] at hgj
          obtain ⟨x2, sY2, char2, hf2, _⟩ :=
            placeGroups_spec nsp gsp gs gy2 false
              (groupEntries nsp x sY g0 ++ ps) hnd.2.1 j gj hdj rj hgj
              hshapej hpj
          refine ⟨x2, sY2, char2, ?_⟩
          have h1 : gy2 ≤ sY2 := hf2 rfl
          have h2 : sY + ((g0.length : ℚ) - 1) * nsp + gsp ≤ gy2 := by
            rw [hgy2]
            exact le_max_right _ _
          linarith
    | succ i =>
      rw [List.get?_cons_succ] at hgi
      obtain ⟨x', sY', char, hf, hlater⟩ :=
        placeGroups_spec nsp gsp gs gy2 false
          (groupEntries nsp x sY g0 ++ ps) hnd.2.1 i gi hdi ri hgi hshape hp
      refine ⟨x', sY', char, ?_, ?_⟩
      · intro _
        have h1 : gy2 ≤ sY' := hf rfl
        have h2 : gy ≤ gy2 := by
          rw [hgy2]
          exact le_max_left _ _
        linarith
      · intro j gj hdj rj hgj hshapej hpj hij
        cases j with
        | zero => omega
        | succ j =>
          rw [List.get?_cons_succ] at hgj
          exact hlater j gj hdj rj hgj hshapej hpj (by omega)

theorem foldl_levelStep_entries (ns : List VisNode) :
    ∀ (L : List ℤ) (ps : List PosEntry),
    ∃ E, L.foldl (levelStep ns) ps = E ++ ps ∧
      ∀ e ∈ E, ∃ lv ∈ L, ∃ g ∈ levelGroups ns lv, ∃ n ∈ g, e.1 = n.id
  | [], ps => ⟨[], rfl, by simp⟩
  | lv :: L, ps => by
    rw [List.foldl_cons]
    by_cases hlv : lv = -1
    · rw [show levelStep ns ps lv = ps from by rw [levelStep, if_pos hlv]]
      obtain ⟨E, hE, hm⟩ := foldl_levelStep_entries ns L ps
      refine ⟨E, hE, fun e he => ?_⟩
      obtain ⟨lv2, hlv2, rest⟩ := hm e he
      exact ⟨lv2, by simp [hlv2], rest⟩
    · rw [show levelStep ns ps lv = placeGroups (nodeSpacingOf ns)
        (groupSpacingOf ns) (levelGroups ns lv) (-10) true ps from by
          rw [levelStep, if_neg hlv]]
      obtain ⟨E1, hE1, hm1⟩ := placeGroups_entries (nodeSpacingOf ns)
        (groupSpacingOf ns) (levelGroups ns lv) (-10) true ps
      rw [hE1]
      obtain ⟨E2, hE2, hm2⟩ := foldl_levelStep_entries ns L (E1 ++ ps)
      refine ⟨E2 ++ E1, by rw [hE2, List.append_assoc], ?_⟩
      intro e he
      rcases List.mem_append.mp he with h | h
      · obtain ⟨lv2, hlv2, rest⟩ := hm2 e h
        exact ⟨lv2, by simp [hlv2], rest⟩
      · obtain ⟨g, hg, n, hn, hid⟩ := hm1 e h
        exact ⟨lv, by simp, g, hg, n, hn, hid⟩

theorem mem_levelGroups {ns : List VisNode} {lv : ℤ} {g : List VisNode}
    {n : VisNode} (hg : g ∈ levelGroups ns lv) (hn : n ∈ g) :
    n ∈ ns ∧ n.level = lv := by
  simp only [levelGroups] at hg
  obtain ⟨k, hk, hgk⟩ := List.mem_map.mp hg
  rw [← hgk] at hn
  have h1 := List.mem_filter.mp hn
  have h2 := List.mem_filter.mp h1.1
  exact ⟨h2.1, of_decide_eq_true h2.2⟩

theorem firstDedup_nodup : ∀ (l : List String), (firstDedup l).Nodup
  | [] => List.nodup_nil
  | k :: t => by
    rw [firstDedup]
    rw [List.nodup_cons]
    constructor
    · intro hk
      have hcontra := (List.mem_filter.mp hk).2
      simp at hcontra
    · exact List.Nodup.filter _ (firstDedup_nodup t)

theorem filterGroups_nodup (l : List VisNode)
    (hl : (l.map VisNode.id).Nodup) :
    ∀ (ks : List String), ks.Nodup →
    ((((ks.map (fun k =>
      l.filter (fun n => decide (parentKey n = k))))).flatten).map
        VisNode.id).Nodup
  | [], _ => by simp
  | k :: ks, hks => by
    rw [List.map_cons, List.flatten_cons, List.map_append, List.nodup_append]
    have hks' := List.nodup_cons.mp hks
    refine ⟨List.Nodup.sublist
      (List.Sublist.map VisNode.id (List.filter_sublist l)) hl,
      filterGroups_nodup l hl ks hks'.2, ?_⟩
    intro y hy1 hy2
    obtain ⟨a, ha, haid⟩ := List.mem_map.mp hy1
    obtain ⟨b, hb, hbid⟩ := List.mem_map.mp hy2
    obtain ⟨gb, hgb, hbg⟩ := List.mem_flatten.mp hb
    obtain ⟨k2, hk2, hk2eq⟩ := List.mem_map.mp hgb
    rw [← hk2eq] at hbg
    have hak : parentKey a = k := by simpa using (List.mem_filter.mp ha).2
    have hbk : parentKey b = k2 := by simpa using (List.mem_filter.mp hbg).2
    have hab : a = b := List.inj_on_of_nodup_map hl
      (List.mem_of_mem_filter ha) (List.mem_of_mem_filter hbg)
      (by rw [haid, hbid])
    rw [hab, hbk] at hak
    rw [← hak] at hks'
    exact hks'.1 hk2

theorem levelGroups_ids_nodup (ns : List VisNode) (lv : ℤ)
    (hnd : (ns.map VisNode.id).Nodup) :
    (((levelGroups ns lv).flatten).map VisNode.id).Nodup := by
  simp only [levelGroups]
  exact filterGroups_nodup _
    (List.Nodup.sublist (List.Sublist.map _ (List.filter_sublist ns)) hnd) _
    (firstDedup_nodup _)

/-- C9: the layout invariants of `calculatePositions`.  For any visible
node set with distinct ids, at any depth level other than the root
level: (a) within one parent group, consecutive siblings differ in `y`
by exactly the positive `nodeSpacing`, and no two siblings at distinct
positions share a `y`; (b) any two distinct parent groups at this level
that are actually placed (non-empty, first sibling has a parent) are
fully separated: every `y` of the later group exceeds every `y` of the
earlier group by at least the positive `groupSpacing`, so their
`[minY, maxY]` envelopes do not overlap. -/
theorem C9_layout_invariants
    (ns : List VisNode) (hnd : (ns.map VisNode.id).Nodup)
    (lv : ℤ) (hlv : ¬ lv = -1)
    (i j : ℕ) (gi gj : List VisNode) (hdi hdj : VisNode)
    (ri rj : List VisNode)
    (hgi : (levelGroups ns lv).get? i = some gi)
    (hgj : (levelGroups ns lv).get? j = some gj)
    (hsi : gi = hdi :: ri) (hsj : gj = hdj :: rj)
    (hpi : hdi.parentId.isSome = true) (hpj : hdj.parentId.isSome = true) :
    0 < nodeSpacingOf ns ∧ 0 < groupSpacingOf ns ∧
    (∀ k a b, gi.get? k = some a → gi.get? (k + 1) = some b →
      (lookupPos (calculatePositions ns) b.id).2 =
        (lookupPos (calculatePositions ns) a.id).2 + nodeSpacingOf ns) ∧
    (∀ k l a b, gi.get? k = some a → gi.get? l = some b → ¬ k = l →
      ¬ (lookupPos (calculatePositions ns) a.id).2 =
        (lookupPos (calculatePositions ns) b.id).2) ∧
    (i < j → ∀ k l a b, gi.get? k = some a → gj.get? l = some b →
      (lookupPos (calculatePositions ns) a.id).2 + groupSpacingOf ns ≤
        (lookupPos (calculatePositions ns) b.id).2) := by
  have hf0 : 0 ≤ spacingFactor ns := le_max_left _ _
  have hnsp : 0 < nodeSpacingOf ns := by
    have h30 : 0 ≤ ((50 : ℚ) - 20) * spacingFactor ns :=
      mul_nonneg (by norm_num) hf0
    rw [nodeSpacingOf]
    linarith
  have hgsp : 0 < groupSpacingOf ns := by
    have h30 : 0 ≤ ((40 : ℚ) - 10) * spacingFactor ns :=
      mul_nonneg (by norm_num) hf0
    rw [groupSpacingOf]
    linarith
  have hmemi : hdi ∈ gi := by rw [hsi]; exact List.mem_cons_self _ _
  have hin := mem_levelGroups (List.get?_mem hgi) hmemi
  have hlvmem : lv ∈ levelsOf ns := by
    rw [levelsOf]
    refine ((List.perm_insertionSort _ _).mem_iff).mpr ?_
    exact List.mem_dedup.mpr (List.mem_map.mpr ⟨hdi, hin.1, hin.2⟩)
  have hlvnd : (levelsOf ns).Nodup := by
    rw [levelsOf]
    exact ((List.perm_insertionSort _ _).nodup_iff).mpr (List.nodup_dedup _)
  obtain ⟨L1, L2, hL⟩ := List.append_of_mem hlvmem
  have hlvL2 : lv ∉ L2 := by
    rw [hL] at hlvnd
    exact (List.nodup_cons.mp (List.nodup_append.mp hlvnd).2.1).1
  obtain ⟨psB, hpsB⟩ :
      ∃ q, q = L1.foldl (levelStep ns) (rootEntry ns) := ⟨_, rfl⟩
  have hcalc : calculatePositions ns =
      L2.foldl (levelStep ns) (placeGroups (nodeSpacingOf ns)
        (groupSpacingOf ns) (levelGroups ns lv) (-10) true psB) := by
    rw [calculatePositions, hL, List.foldl_append, ← hpsB, List.foldl_cons,
      show levelStep ns psB lv = placeGroups (nodeSpacingOf ns)
        (groupSpacingOf ns) (levelGroups ns lv) (-10) true psB from by
          rw [levelStep, if_neg hlv]]
  obtain ⟨E, hE, hEm⟩ := foldl_levelStep_entries ns L2
    (placeGroups (nodeSpacingOf ns) (groupSpacingOf ns) (levelGroups ns lv)
      (-10) true psB)
  have hbridge : ∀ (g : List VisNode) (k : ℕ) (a : VisNode),
      g ∈ levelGroups ns lv → g.get? k = some a →
      lookupPos (calculatePositions ns) a.id =
        lookupPos (placeGroups (nodeSpacingOf ns) (groupSpacingOf ns)
          (levelGroups ns lv) (-10) true psB) a.id := by
    intro g k a hgmem hget
    rw [hcalc, hE]
    refine lookupPos_append_not_mem E _ a.id ?_
    intro e he heq
    obtain ⟨lv2, hlv2, g2, hg2, n, hn, hid⟩ := hEm e he
    have h2 := mem_levelGroups hg2 hn
    have ha := mem_levelGroups hgmem (List.get?_mem hget)
    have han : a = n := List.inj_on_of_nodup_map hnd ha.1 h2.1
      (by rw [← heq, hid])
    refine hlvL2 ?_
    rw [show lv = lv2 from by rw [← ha.2, han, h2.2]]
    exact hlv2
  obtain ⟨x, sY, char, _, hlater⟩ := placeGroups_spec (nodeSpacingOf ns)
    (groupSpacingOf ns) (levelGroups ns lv) (-10) true psB
    (levelGroups_ids_nodup ns lv hnd) i gi hdi ri hgi hsi hpi
  refine ⟨hnsp, hgsp, ?_, ?_, ?_⟩
  · intro k a b hka hkb
    rw [hbridge gi k a (List.get?_mem hgi) hka,
      hbridge gi (k + 1) b (List.get?_mem hgi) hkb,
      char k a hka, char (k + 1) b hkb]
    show sY + ((k + 1 : ℕ) : ℚ) * nodeSpacingOf ns =
      sY + (k : ℚ) * nodeSpacingOf ns + nodeSpacingOf ns
    push_cast
    ring
  · intro k l a b hka hlb hkl heq
    rw [hbridge gi k a (List.get?_mem hgi) hka,
      hbridge gi l b (List.get?_mem hgi) hlb,
      char k a hka, char l b hlb] at heq
    have h1 : (k : ℚ) * nodeSpacingOf ns = (l : ℚ) * nodeSpacingOf ns := by
      have h2 : sY + (k : ℚ) * nodeSpacingOf ns =
          sY + (l : ℚ) * nodeSpacingOf ns := heq
      linarith
    have h3 : (k : ℚ) = (l : ℚ) :=
      mul_right_cancel₀ (ne_of_gt hnsp) h1
    exact hkl (Nat.cast_injective h3)
  · intro hij k l a b hka hlb
    obtain ⟨x2, sY2, char2, hsep⟩ := hlater j gj hdj rj hgj hsj hpj hij
    rw [hbridge gi k a (List.get?_mem hgi) hka,
      hbridge gj l b (List.get?_mem hgj) hlb,
      char k a hka, char2 l b hlb]
    show sY + (k : ℚ) * nodeSpacingOf ns + groupSpacingOf ns ≤
      sY2 + (l : ℚ) * nodeSpacingOf ns
    obtain ⟨hklen, _⟩ := List.get?_eq_some.mp hka
    have hkq : (k : ℚ) ≤ (gi.length : ℚ) - 1 := by
      have hc : (k : ℚ) + 1 ≤ (gi.length : ℚ) := by exact_mod_cast hklen
      linarith
    have hmul1 : (k : ℚ) * nodeSpacingOf ns ≤
        ((gi.length : ℚ) - 1) * nodeSpacingOf ns :=
      mul_le_mul_of_nonneg_right hkq (le_of_lt hnsp)
    have hmul2 : 0 ≤ (l : ℚ) * nodeSpacingOf ns :=
      mul_nonneg (Nat.cast_nonneg l) (le_of_lt hnsp)
    linarith

/-- The visible-node set of the C9 witness run: a root, two expanded
`H^0` children, one `H^1` child under each — two sibling groups at
level 1. -/
def c9root : VisNode := ⟨"root", "root", -1, none⟩

def c9a1 : VisNode := ⟨"h0-0", "frequency", 0, some "root"⟩

def c9a2 : VisNode := ⟨"h0-1", "frequency", 0, some "root"⟩

def c9c1 : VisNode := ⟨"h1-h0-0-0", "frequency", 1, some "h0-0"⟩

def c9c2 : VisNode := ⟨"h1-h0-1-0", "frequency", 1, some "h0-1"⟩

def c9ns : List VisNode := [c9root, c9a1, c9a2, c9c1, c9c2]

theorem C9_witness :
    ((c9ns.map VisNode.id).Nodup) ∧
    (¬ (1 : ℤ) = -1) ∧
    ((levelGroups c9ns 1).get? 0 = some [c9c1]) ∧
    ((levelGroups c9ns 1).get? 1 = some [c9c2]) ∧
    (c9c1.parentId.isSome = true) ∧ (c9c2.parentId.isSome = true) ∧
    (0 < nodeSpacingOf c9ns ∧ 0 < groupSpacingOf c9ns ∧
     (∀ k a b, ([c9c1] : List VisNode).get? k = some a →
        ([c9c1] : List VisNode).get? (k + 1) = some b →
        (lookupPos (calculatePositions c9ns) b.id).2 =
          (lookupPos (calculatePositions c9ns) a.id).2 + nodeSpacingOf c9ns) ∧
     (∀ k l a b, ([c9c1] : List VisNode).get? k = some a →
        ([c9c1] : List VisNode).get? l = some b → ¬ k = l →
        ¬ (lookupPos (calculatePositions c9ns) a.id).2 =
          (lookupPos (calculatePositions c9ns) b.id).2) ∧
     ((0 : ℕ) < 1 → ∀ k l a b, ([c9c1] : List VisNode).get? k = some a →
        ([c9c2] : List VisNode).get? l = some b →
        (lookupPos (calculatePositions c9ns) a.id).2 + groupSpacingOf c9ns ≤
          (lookupPos (calculatePositions c9ns) b.id).2)) :=
  ⟨by decide, by decide, rfl, rfl, rfl, rfl,
   C9_layout_invariants c9ns (by decide) 1 (by decide) 0 1 [c9c1] [c9c2]
     c9c1 c9c2 [] [] rfl rfl rfl rfl rfl rfl⟩

end App
